import Mathlib

/-!
# Verification of the SHA-3 / Keccak implementation (`sha3.js`)

This file gives a shallow embedding of the SHA-3 reference implementation
(`src/sha3.js`) and proves the specification claims about it.

JavaScript 32-bit bitwise semantics are modelled explicitly: the binary
operators `^`, `&`, `|`, `~`, `<<` convert their operands with ToInt32
(producing a signed 32-bit result), while `>>>` converts with ToUint32 and
produces a non-negative result; shift counts are taken modulo 32.
-/

namespace Sha3

/-- JS ToUint32 of an integer, as an integer in `[0, 2^32)`. -/
def toUint32 (i : Int) : Int := i % 4294967296

/-- The 32-bit pattern of an integer, as a natural number below `2^32`. -/
def u32 (i : Int) : Nat := (toUint32 i).toNat

/-- JS ToInt32 of an integer: the 32-bit pattern read as a signed value. -/
def toInt32 (i : Int) : Int :=
  if i % 4294967296 < 2147483648 then i % 4294967296 else i % 4294967296 - 4294967296

/-- JS `a ^ b` on numbers (32-bit xor, signed result). -/
def jsXor (a b : Int) : Int := toInt32 ((((u32 a) ^^^ (u32 b) : Nat)) : Int)

/-- JS `a & b` on numbers (32-bit and, signed result). -/
def jsAnd (a b : Int) : Int := toInt32 ((((u32 a) &&& (u32 b) : Nat)) : Int)

/-- JS `a | b` on numbers (32-bit or, signed result). -/
def jsOr (a b : Int) : Int := toInt32 ((((u32 a) ||| (u32 b) : Nat)) : Int)

/-- JS `~a` on numbers (32-bit complement, signed result). -/
def jsNot (a : Int) : Int := toInt32 ((((u32 a) ^^^ 4294967295 : Nat)) : Int)

/-- JS `a << n` on numbers: shift count mod 32, signed 32-bit result. -/
def jsShl (a : Int) (n : Nat) : Int :=
  toInt32 (((((u32 a) <<< (n % 32)) % 4294967296 : Nat)) : Int)

/-- JS `a >>> n` on numbers: shift count mod 32, unsigned result. -/
def jsShrU (a : Int) (n : Nat) : Int := (((u32 a) >>> (n % 32) : Nat) : Int)

/-- JS `a >>> 0`: ToUint32 normalization. -/
def jsShrU0 (a : Int) : Int := ((u32 a : Nat) : Int)

/-- `Sha3.Long`: a 64-bit quantity held as two JS numbers `hi`, `lo`
(32-bit halves, possibly negative when produced by signed JS operators). -/
structure Long where
  hi : Int
  lo : Int
deriving DecidableEq, Repr

/-- The 64-bit value a `Long` represents: the bit patterns of `hi` and `lo`
concatenated. -/
def Long.val (v : Long) : Nat := ((u32 v.hi) <<< 32) ||| (u32 v.lo)

/-- `Long.prototype.rotl`: rotate left by `n` bits, translated from the
source including its three branches and JS shift-count semantics. -/
def Long.rotl (v : Long) (n : Nat) : Long :=
  if n < 32 then
    let m := 32 - n
    let lo := jsOr (jsShl v.lo n) (jsShrU v.hi m)
    let hi := jsOr (jsShl v.hi n) (jsShrU v.lo m)
    Long.mk hi lo
  else if n = 32 then
    Long.mk v.lo v.hi
  else
    let n' := n - 32
    let m := 32 - n'
    let lo := jsOr (jsShl v.hi n') (jsShrU v.lo m)
    let hi := jsOr (jsShl v.lo n') (jsShrU v.hi m)
    Long.mk hi lo

/-- Value of a hexadecimal digit character (as consumed by `parseInt`). -/
def hexDigitVal (c : Char) : Option Nat :=
  if '0' ≤ c ∧ c ≤ '9' then some (c.toNat - '0'.toNat)
  else if 'a' ≤ c ∧ c ≤ 'f' then some (c.toNat - 'a'.toNat + 10)
  else if 'A' ≤ c ∧ c ≤ 'F' then some (c.toNat - 'A'.toNat + 10)
  else none

/-- `parseInt(s, 16)` on a string of hexadecimal digits. -/
def parseHexChars (cs : List Char) : Nat :=
  cs.foldl (fun acc c => acc * 16 + ((hexDigitVal c).getD 0)) 0

/-- `Long.fromString`: split a 16-hex-digit string into two 8-digit halves
and parse each with `parseInt(_, 16)`. -/
def Long.fromString (s : String) : Long :=
  let cs := s.toList
  Long.mk ((parseHexChars (cs.take 8) : Nat) : Int)
          ((parseHexChars ((cs.drop 8).take 8) : Nat) : Int)

/-- JS `n.toString(16)` digit list for a natural number, with explicit fuel
(the digits of `n`, most significant first, lowercase). -/
def hexVarAux : Nat → Nat → List Char
  | 0, _ => []
  | fuel+1, n =>
    if n < 16 then [Nat.digitChar n]
    else hexVarAux fuel (n / 16) ++ [Nat.digitChar (n % 16)]

/-- JS `n.toString(16)` for a natural number. -/
def hexVar (n : Nat) : List Char := hexVarAux (n + 1) n

/-- JS `i.toString(16)` for an integer (negative values get a leading minus
sign, as in JS). -/
def intToString16 (i : Int) : List Char :=
  if i < 0 then '-' :: hexVar i.natAbs else hexVar i.toNat

/-- JS `('00000000' + s).slice(-8)`: the last 8 characters of `s` padded
left with zeros. -/
def jsPad8 (s : List Char) : List Char :=
  (List.replicate 8 '0' ++ s).drop s.length

/-- `Long.prototype.toString`: the two halves rendered in hex, each padded
with `('00000000'+x.toString(16)).slice(-8)`. -/
def Long.toChars (v : Long) : List Char :=
  jsPad8 (intToString16 v.hi) ++ jsPad8 (intToString16 v.lo)

/-- The Keccak state: a 5 × 5 array of `Long`, outer index `x` (sheet),
inner index `y` (plane), as in the source. -/
abbrev State := List (List Long)

/-- Read lane `(x, y)` of the state. -/
def getLane (s : State) (x y : Nat) : Long := (s.getD x []).getD y (Long.mk 0 0)

/-- Replace lane `(x, y)` of the state. -/
def setLane (s : State) (x y : Nat) (v : Long) : State :=
  s.set x ((s.getD x []).set y v)

/-- The all-zero 5 × 5 state created at the start of `keccak1600`. -/
def initState : State := List.replicate 5 (List.replicate 5 (Long.mk 0 0))

/-- θ, first half: column parities `C[x]`, each the xor of the five lanes of
column `x` (JS `^` on each half). -/
def thetaC (a : State) : List Long :=
  (List.range 5).map (fun x =>
    (List.range' 1 4).foldl
      (fun c y => Long.mk (jsXor c.hi (getLane a x y).hi) (jsXor c.lo (getLane a x y).lo))
      (getLane a x 0))

/-- θ step: xor `D[x] = C[(x+4)%5] ^ ROT(C[(x+1)%5], 1)` into every lane of
column `x`. -/
def theta (a : State) : State :=
  let C := thetaC a
  (List.range 5).map (fun x =>
    let hi := jsXor (C.getD ((x+4) % 5) (Long.mk 0 0)).hi ((C.getD ((x+1) % 5) (Long.mk 0 0)).rotl 1).hi
    let lo := jsXor (C.getD ((x+4) % 5) (Long.mk 0 0)).lo ((C.getD ((x+1) % 5) (Long.mk 0 0)).rotl 1).lo
    (List.range 5).map (fun y =>
      Long.mk (jsXor (getLane a x y).hi hi) (jsXor (getLane a x y).lo lo)))

/-- ρ + π fused step: walk the 24 non-origin lanes along the trajectory
`x,y ← y, (2x+3y) mod 5` starting at (1,0), writing the rotation of the
carried lane at each stop. -/
def rhoPi (a : State) : State :=
  let step := fun (st : Nat × Nat × Long × State) (t : Nat) =>
    let x := st.1
    let y := st.2.1
    let current := st.2.2.1
    let s := st.2.2.2
    let X := y
    let Y := (2*x + 3*y) % 5
    let tmp := getLane s X Y
    let s' := setLane s X Y (current.rotl (((t+1)*(t+2)/2) % 64))
    (X, Y, tmp, s')
  ((List.range 24).foldl step (1, 0, getLane a 1 0, a)).2.2.2

/-- χ step: `a[x][y] = (C[x] ^ (~C[(x+1)%5] & C[(x+2)%5])) >>> 0` per half,
where `C` is the unmodified plane. -/
def chi (a : State) : State :=
  (List.range 5).map (fun x =>
    (List.range 5).map (fun y =>
      Long.mk
        (jsShrU0 (jsXor (getLane a x y).hi (jsAnd (jsNot (getLane a ((x+1) % 5) y).hi) (getLane a ((x+2) % 5) y).hi)))
        (jsShrU0 (jsXor (getLane a x y).lo (jsAnd (jsNot (getLane a ((x+1) % 5) y).lo) (getLane a ((x+2) % 5) y).lo)))))

/-- ι step: xor the round constant into lane (0,0), normalized with `>>> 0`. -/
def iota (rc : Long) (a : State) : State :=
  setLane a 0 0
    (Long.mk (jsShrU0 (jsXor (getLane a 0 0).hi rc.hi))
             (jsShrU0 (jsXor (getLane a 0 0).lo rc.lo)))

/-- The 24 round constants, parsed from their source hex strings. -/
def RC : List Long :=
  [ "0000000000000001", "0000000000008082", "800000000000808a",
    "8000000080008000", "000000000000808b", "0000000080000001",
    "8000000080008081", "8000000000008009", "000000000000008a",
    "0000000000000088", "0000000080008009", "000000008000000a",
    "000000008000808b", "800000000000008b", "8000000000008089",
    "8000000000008003", "8000000000008002", "8000000000000080",
    "000000000000800a", "800000008000000a", "8000000080008081",
    "8000000000008080", "0000000080000001", "8000000080008008" ].map Long.fromString

/-- One Keccak round: θ, ρ, π, χ, ι in order. -/
def keccakRound (s : State) (rc : Long) : State := iota rc (chi (rhoPi (theta s)))

/-- `Sha3.keccak_f_1600`: the full 24-round permutation. -/
def keccak_f_1600 (a : State) : State := RC.foldl keccakRound a

/-- The padding step of `keccak1600` (lines 114–122): `pad10*1` with the
SHA-3 / Keccak domain byte, over a message of bytes with `rateBytes = r/8`. -/
def padMsg (rateBytes : Nat) (keccakPad : Bool) (msg : List Nat) : List Nat :=
  let q := rateBytes - msg.length % rateBytes
  if q = 1 then
    msg ++ [if keccakPad then 0x81 else 0x86]
  else
    msg ++ [if keccakPad then 0x01 else 0x06] ++ List.replicate (q - 2) 0x00 ++ [0x80]

/-- Split a list into consecutive chunks of `n` elements (the absorbing
loop's block structure), with explicit fuel. -/
def chunksAux : Nat → Nat → List Nat → List (List Nat)
  | 0, _, _ => []
  | _+1, _, [] => []
  | fuel+1, n, l => l.take n :: chunksAux fuel n (l.drop n)

/-- Split a list into consecutive chunks of `n` elements. -/
def chunks (n : Nat) (l : List Nat) : List (List Nat) := chunksAux l.length n l

/-- The `lo` word of lane `j` of a block: four bytes combined with JS `<<`
and `+` (line 131). -/
def laneLo (block : List Nat) (j : Nat) : Int :=
  jsShl ((block.getD (j*8+0) 0 : Nat) : Int) 0 + jsShl ((block.getD (j*8+1) 0 : Nat) : Int) 8 +
  jsShl ((block.getD (j*8+2) 0 : Nat) : Int) 16 + jsShl ((block.getD (j*8+3) 0 : Nat) : Int) 24

/-- The `hi` word of lane `j` of a block (line 133). -/
def laneHi (block : List Nat) (j : Nat) : Int :=
  jsShl ((block.getD (j*8+4) 0 : Nat) : Int) 0 + jsShl ((block.getD (j*8+5) 0 : Nat) : Int) 8 +
  jsShl ((block.getD (j*8+6) 0 : Nat) : Int) 16 + jsShl ((block.getD (j*8+7) 0 : Nat) : Int) 24

/-- Absorb one `r/8`-byte block: for each `j < nLanes = r/64`, build `lo`
and `hi` from 8 bytes with JS `<<` and `+`, and xor them into lane
`(j mod 5, j div 5)` with JS `^`. -/
def absorbBlock (nLanes : Nat) (block : List Nat) (s : State) : State :=
  (List.range nLanes).foldl (fun s j =>
    setLane s (j % 5) (j / 5)
      (Long.mk (jsXor (getLane s (j % 5) (j / 5)).hi (laneHi block j))
               (jsXor (getLane s (j % 5) (j / 5)).lo (laneLo block j)))) s

/-- Consecutive two-character groups, dropping a trailing unpaired
character: this equals JS `match(/.{2}/g)` (see `jsMatch2`) on strings
without line terminators, such as the 16-hex-digit lane strings of the
squeeze phase. -/
def chunk2 : List Char → List (List Char)
  | a :: b :: rest => [a, b] :: chunk2 rest
  | _ => []

/-- The squeezing phase (line 146): transpose the state, render each lane
with `toString`, reverse its byte pairs (little-endian), join, and truncate
to `l/4` hex characters. -/
def squeezeChars (s : State) (l : Nat) : List Char :=
  (((List.range 5).map (fun y =>
      ((List.range 5).map (fun x =>
        ((chunk2 (Long.toChars (getLane s x y))).reverse).flatten)).flatten)).flatten).take (l / 4)

/-- The sponge core of `Sha3.keccak1600` on an already-encoded byte
message: pad, absorb block by block (permuting after each block), squeeze. -/
def keccak1600core (r c : Nat) (keccakPad : Bool) (msgBytes : List Nat) : List Char :=
  let l := c / 2
  let padded := padMsg (r / 8) keccakPad msgBytes
  let st := (chunks (r / 8) padded).foldl
    (fun s b => keccak_f_1600 (absorbBlock (r / 64) b s)) initState
  squeezeChars st l

/-- UTF-8 bytes of one Unicode scalar value (what `TextEncoder` produces
per character of a well-formed string). -/
def utf8Bytes (c : Nat) : List Nat :=
  if c < 0x80 then [c]
  else if c < 0x800 then [0xC0 ||| (c >>> 6), 0x80 ||| (c &&& 0x3F)]
  else if c < 0x10000 then
    [0xE0 ||| (c >>> 12), 0x80 ||| ((c >>> 6) &&& 0x3F), 0x80 ||| (c &&& 0x3F)]
  else
    [0xF0 ||| (c >>> 18), 0x80 ||| ((c >>> 12) &&& 0x3F),
     0x80 ||| ((c >>> 6) &&& 0x3F), 0x80 ||| (c &&& 0x3F)]

/-- `utf8Encode`: the message mapped to its UTF-8 bytes, one JS character
per byte. -/
def utf8Encode (s : String) : List Nat := s.data.flatMap (fun ch => utf8Bytes ch.toNat)

/-- `Sha3.hash256` with default options, as chars. -/
def hash256Chars (M : String) : List Char := keccak1600core 1088 512 false (utf8Encode M)

/-- `Sha3.hash224` with default options. -/
def hash224 (M : String) : String := ⟨keccak1600core 1152 448 false (utf8Encode M)⟩

/-- `Sha3.hash256` with default options. -/
def hash256 (M : String) : String := ⟨hash256Chars M⟩

/-- `Sha3.hash384` with default options. -/
def hash384 (M : String) : String := ⟨keccak1600core 832 768 false (utf8Encode M)⟩

/-- `Sha3.hash512` with default options. -/
def hash512 (M : String) : String := ⟨keccak1600core 576 1024 false (utf8Encode M)⟩

/-! ## Message formats, output formats and the options record -/

/-- Remove the first space of a string (JS `str.replace(' ', '')`, whose
pattern is not global). -/
def removeFirstSpace : List Char → List Char
  | [] => []
  | c :: rest => if c = ' ' then rest else c :: removeFirstSpace rest

/-- JS line terminators: the characters `.` never matches. -/
def isLineTerm (c : Char) : Bool :=
  c == '\n' || c == '\r' || c == '\u2028' || c == '\u2029'

/-- The JS `StrWhiteSpaceChar` set skipped by `parseInt`: whitespace and
line terminators. -/
def isJsWhitespace (c : Char) : Bool :=
  c == '\t' || c == '\n' || c == '\x0b' || c == '\x0c' || c == '\r' || c == ' ' ||
  c == '\u00a0' || c == '\u1680' || ('\u2000' ≤ c && c ≤ '\u200a') ||
  c == '\u2028' || c == '\u2029' || c == '\u202f' || c == '\u205f' ||
  c == '\u3000' || c == '\ufeff'

/-- JS `match(/.{2}/g)`: scan left to right for two consecutive characters
that are not line terminators; a failed position advances by one; the empty
result list models the `null` return. -/
def jsMatch2 : List Char → List (List Char)
  | [] => []
  | [_] => []
  | a :: b :: rest =>
    if isLineTerm a then jsMatch2 (b :: rest)
    else if isLineTerm b then jsMatch2 rest
    else [a, b] :: jsMatch2 rest

/-- The hex digits at the head of a string, as consumed by `parseInt`:
`none` when there is no digit (NaN). -/
def parseHexRun (cs : List Char) : Option Nat :=
  let ds := cs.takeWhile (fun c => (hexDigitVal c).isSome)
  if ds = [] then none else some (parseHexChars ds)

/-- `parseInt(s, 16)` after sign handling: an optional `0x`/`0X` prefix is
skipped, then the longest run of hex digits is read. -/
def parseHexBody (cs : List Char) : Option Nat :=
  match cs with
  | '0' :: 'x' :: rest => parseHexRun rest
  | '0' :: 'X' :: rest => parseHexRun rest
  | _ => parseHexRun cs

/-- `parseInt(s, 16)`: skip leading whitespace, read an optional sign, then
the hex body; `none` models NaN. -/
def parseIntHex (cs : List Char) : Option Int :=
  match cs.dropWhile (fun c => isJsWhitespace c) with
  | '-' :: rest => (parseHexBody rest).map (fun n => -(n : Int))
  | '+' :: rest => (parseHexBody rest).map (fun n => (n : Int))
  | rest => (parseHexBody rest).map (fun n => (n : Int))

/-- `String.fromCharCode(v)`: ToUint16 of the value, with NaN mapping to
code 0. -/
def jsFromCharCode (v : Option Int) : Nat :=
  match v with
  | none => 0
  | some i => (i % 65536).toNat

/-- The body of `hexBytesToString` after the single-space removal: `''`
maps to the empty message; otherwise `match(/.{2}/g)` groups the characters
in pairs of non-line-terminators and returns `null` when there is no match,
which makes the subsequent `.map` throw (modelled as `none`). -/
def charsToBytes (str : List Char) : Option (List Nat) :=
  if str = [] then some []
  else if jsMatch2 str = [] then none
  else some ((jsMatch2 str).map (fun p => jsFromCharCode (parseIntHex p)))

/-- `hexBytesToString`: decode a string of hex byte pairs, allowing (only)
one space to be removed. -/
def hexBytesToString (M : String) : Option (List Nat) :=
  charsToBytes (removeFirstSpace M.toList)

/-- Join a list of strings with single spaces (JS `Array.join(' ')`). -/
def joinSpace (ls : List (List Char)) : List Char := (ls.intersperse [' ']).flatten

/-- `outFormat: 'hex-b'`: group the digest into space-separated bytes. -/
def groupHexB (md : List Char) : List Char := joinSpace (chunk2 md)

/-- JS `match(/.{8,16}/g)`: greedy groups of 16 characters, a final group
of 8–15, shorter remainders dropped. -/
def chunkW : Nat → List Char → List (List Char)
  | 0, _ => []
  | fuel+1, l =>
    if 16 ≤ l.length then l.take 16 :: chunkW fuel (l.drop 16)
    else if 8 ≤ l.length then [l] else []

/-- `outFormat: 'hex-w'`: group the digest into space-separated words. -/
def groupHexW (md : List Char) : List Char := joinSpace (chunkW md.length md)

/-- The `options` record of the digest API, after `Object.assign` with the
defaults. -/
structure HashOptions where
  padding : String := "sha-3"
  msgFormat : String := "string"
  outFormat : String := "hex"
deriving DecidableEq, Repr

/-- `Sha3.keccak1600` with its full options handling: `msgFormat` picks the
decoder (default branch: `string`), `padding` is compared against
`'keccak'`, `outFormat` post-processes the hex digest; `none` models a
thrown error. -/
def keccak1600 (r c : Nat) (M : String) (opt : HashOptions) : Option String :=
  match (if opt.msgFormat = "hex-bytes" then hexBytesToString M else some (utf8Encode M)) with
  | none => none
  | some msg =>
    let md := keccak1600core r c (opt.padding == "keccak") msg
    let md1 := if opt.outFormat = "hex-b" then groupHexB md else md
    let md2 := if opt.outFormat = "hex-w" then groupHexW md1 else md1
    some ⟨md2⟩

/-- `Sha3.hash256` with `msgFormat: 'hex-bytes'` and otherwise default
options. -/
def hashHex256 (M : String) : Option (List Char) :=
  (hexBytesToString M).map (keccak1600core 1088 512 false)

/-! ## Specification-side definitions

These follow the spec's wording of the sponge layout and are related to the
source translation by the refinement theorems below. -/

/-- The eight little-endian bytes of a 64-bit value. -/
def leBytes8 (n : Nat) : List Nat :=
  [n % 256, n / 2^8 % 256, n / 2^16 % 256, n / 2^24 % 256,
   n / 2^32 % 256, n / 2^40 % 256, n / 2^48 % 256, n / 2^56 % 256]

/-- The 64-bit value of eight little-endian bytes at offset `off` of a
block. -/
def leVal8 (block : List Nat) (off : Nat) : Nat :=
  block.getD off 0 + block.getD (off+1) 0 * 2^8 + block.getD (off+2) 0 * 2^16 +
  block.getD (off+3) 0 * 2^24 + block.getD (off+4) 0 * 2^32 + block.getD (off+5) 0 * 2^40 +
  block.getD (off+6) 0 * 2^48 + block.getD (off+7) 0 * 2^56

/-- Fixed-width lowercase hex rendering, most significant digit first. -/
def hexFixed (w n : Nat) : List Char :=
  (List.range w).reverse.map (fun i => Nat.digitChar (n / 16 ^ i % 16))

/-- A byte list rendered as contiguous lowercase hex. -/
def hexOfBytes (bs : List Nat) : List Char := bs.flatMap (fun b => hexFixed 2 b)

/-- The state serialized in lane order `index = 5y + x`, each lane as its
eight little-endian bytes. -/
def serializeState (s : State) : List Nat :=
  (List.range 25).flatMap (fun j => leBytes8 (getLane s (j % 5) (j / 5)).val)

/-- 64-bit complement. -/
def compl64 (n : Nat) : Nat := n ^^^ (2^64 - 1)

/-- Left-rotation of a 64-bit value. -/
def rot64 (m d : Nat) : Nat := ((m <<< d) % 2^64) ||| (m >>> (64 - d))

/-- A lowercase hexadecimal character. -/
def isLowerHex (c : Char) : Bool := ('0' ≤ c && c ≤ '9') || ('a' ≤ c && c ≤ 'f')

/-- `hi` and `lo` are in normalized (non-negative 32-bit) form. -/
def normLong (v : Long) : Prop :=
  0 ≤ v.hi ∧ v.hi < 4294967296 ∧ 0 ≤ v.lo ∧ v.lo < 4294967296

/-- Every lane of the 5 × 5 state is normalized. -/
def normState (s : State) : Prop :=
  ∀ x y, x < 5 → y < 5 → normLong (getLane s x y)

/-- The state has the 5 × 5 shape. -/
def Wf (s : State) : Prop := s.length = 5 ∧ ∀ c ∈ s, c.length = 5

/-! ## Arithmetic facts about the JS 32-bit primitives -/

theorem u32_lt (i : Int) : u32 i < 4294967296 := by
  have h1 := Int.emod_nonneg i (show (4294967296 : Int) ≠ 0 by norm_num)
  have h2 := Int.emod_lt_of_pos i (show (0 : Int) < 4294967296 by norm_num)
  unfold u32 toUint32
  omega

theorem u32_cast (x : Nat) (h : x < 4294967296) : u32 ((x : Nat) : Int) = x := by
  unfold u32 toUint32
  omega

theorem u32_lt_pow (i : Int) : u32 i < 2 ^ 32 := by
  have := u32_lt i
  omega

theorem u32_toInt32 (i : Int) : u32 (toInt32 i) = u32 i := by
  have h1 := Int.emod_nonneg i (show (4294967296 : Int) ≠ 0 by norm_num)
  have h2 := Int.emod_lt_of_pos i (show (0 : Int) < 4294967296 by norm_num)
  unfold u32 toInt32 toUint32
  split <;> omega

theorem u32_nonneg_eq (i : Int) (h0 : 0 ≤ i) (h : i < 4294967296) : u32 i = i.toNat := by
  unfold u32 toUint32
  omega

theorem u32_jsXor (a b : Int) : u32 (jsXor a b) = (u32 a) ^^^ (u32 b) := by
  rw [jsXor, u32_toInt32, u32_cast]
  have := Nat.xor_lt_two_pow (u32_lt_pow a) (u32_lt_pow b)
  omega

theorem u32_jsAnd (a b : Int) : u32 (jsAnd a b) = (u32 a) &&& (u32 b) := by
  rw [jsAnd, u32_toInt32, u32_cast]
  have := Nat.and_lt_two_pow (u32 a) (u32_lt_pow b)
  omega

theorem u32_jsOr (a b : Int) : u32 (jsOr a b) = (u32 a) ||| (u32 b) := by
  rw [jsOr, u32_toInt32, u32_cast]
  have := Nat.or_lt_two_pow (u32_lt_pow a) (u32_lt_pow b)
  omega

theorem u32_jsNot (a : Int) : u32 (jsNot a) = (u32 a) ^^^ 4294967295 := by
  rw [jsNot, u32_toInt32, u32_cast]
  have := Nat.xor_lt_two_pow (u32_lt_pow a) (show (4294967295 : Nat) < 2 ^ 32 by norm_num)
  omega

theorem u32_jsShl (a : Int) (n : Nat) : u32 (jsShl a n) = ((u32 a) <<< (n % 32)) % 4294967296 := by
  rw [jsShl, u32_toInt32, u32_cast]
  exact Nat.mod_lt _ (by norm_num)

theorem u32_jsShrU (a : Int) (n : Nat) : u32 (jsShrU a n) = (u32 a) >>> (n % 32) := by
  rw [jsShrU, u32_cast]
  have h1 : (u32 a) >>> (n % 32) ≤ u32 a := by
    rw [Nat.shiftRight_eq_div_pow]
    exact Nat.div_le_self _ _
  have := u32_lt a
  omega

theorem u32_jsShrU0 (a : Int) : u32 (jsShrU0 a) = u32 a := by
  rw [jsShrU0, u32_cast]
  exact u32_lt a

theorem jsShrU0_norm (a : Int) : 0 ≤ jsShrU0 a ∧ jsShrU0 a < 4294967296 := by
  have := u32_lt a
  unfold jsShrU0
  omega

/-! ## C3: padding -/

theorem padMsg_mod (rateBytes : Nat) (hr : 0 < rateBytes) (kp : Bool) (msg : List Nat) :
    (padMsg rateBytes kp msg).length % rateBytes = 0 := by
  have hm : msg.length % rateBytes < rateBytes := Nat.mod_lt _ hr
  have hdm := Nat.div_add_mod msg.length rateBytes
  have key : (msg.length + (rateBytes - msg.length % rateBytes)) % rateBytes = 0 := by
    have : msg.length + (rateBytes - msg.length % rateBytes)
        = rateBytes * (msg.length / rateBytes + 1) := by
      rw [Nat.mul_add, Nat.mul_one]
      omega
    rw [this, Nat.mul_mod_right]
  rw [padMsg]
  split
  · rename_i h1
    simpa [Nat.add_comm, h1] using key
  · rename_i h1
    have hq : 2 ≤ rateBytes - msg.length % rateBytes := by omega
    simp only [List.length_append, List.length_cons, List.length_replicate,
      List.length_nil]
    have h2 : msg.length + 1 + (rateBytes - msg.length % rateBytes - 2) + 1
        = msg.length + (rateBytes - msg.length % rateBytes) := by omega
    rw [h2]
    exact key

/-! ## State access lemmas -/

theorem getD_of_getElem? {α : Type} {l : List α} {i : Nat} {x d : α} (h : l[i]? = some x) :
    l.getD i d = x := by
  simp [List.getD_eq_getElem?_getD, h]

theorem getLane_map5 (f : Nat → Nat → Long) (x y : Nat) (hx : x < 5) (hy : y < 5) :
    getLane ((List.range 5).map (fun x => (List.range 5).map (fun y => f x y))) x y = f x y := by
  interval_cases x <;> interval_cases y <;> rfl

theorem getLane_setLane_ne (s : State) {x y x' y' : Nat} (v : Long)
    (h : x ≠ x' ∨ y ≠ y') : getLane (setLane s x y v) x' y' = getLane s x' y' := by
  rcases eq_or_ne x x' with rfl | hne
  · have hy : y ≠ y' := by
      rcases h with h | h
      · exact absurd rfl h
      · exact h
    by_cases hx : x < s.length
    · unfold getLane setLane
      rw [getD_of_getElem? (List.getElem?_set_self hx)]
      simp [List.getD_eq_getElem?_getD, List.getElem?_set_ne hy]
    · unfold getLane setLane
      rw [List.set_eq_of_length_le (by omega)]
  · unfold getLane setLane
    simp only [List.getD_eq_getElem?_getD, List.getElem?_set_ne hne]

theorem getLane_setLane_self (s : State) {x y : Nat} (v : Long)
    (hx : x < s.length) (hy : y < (s.getD x []).length) :
    getLane (setLane s x y v) x y = v := by
  unfold getLane setLane
  simp only [List.getD_eq_getElem?_getD]
  rw [List.getElem?_set_self hx]
  simp only [Option.getD_some]
  have hgd : s.getD x [] = (s[x]?).getD [] := by simp [List.getD_eq_getElem?_getD]
  rw [← hgd, List.getElem?_set_self hy]
  rfl

theorem getLane_setLane_or (s : State) (x y : Nat) (v : Long) :
    getLane (setLane s x y v) x y = v ∨ getLane (setLane s x y v) x y = getLane s x y := by
  by_cases hx : x < s.length
  · have hget : getLane (setLane s x y v) x y = ((s.getD x []).set y v).getD y (Long.mk 0 0) := by
      unfold getLane setLane
      rw [getD_of_getElem? (List.getElem?_set_self hx)]
    by_cases hy : y < (s.getD x []).length
    · exact Or.inl (getLane_setLane_self s v hx hy)
    · right
      rw [hget, List.set_eq_of_length_le (by omega)]
      rfl
  · right
    unfold setLane
    rw [List.set_eq_of_length_le (by omega)]

/-! ## C8 groundwork: the permutation always leaves a normalized state -/

theorem chi_norm (a : State) : normState (chi a) := by
  intro x y hx hy
  rw [chi, getLane_map5 _ _ _ hx hy]
  exact ⟨(jsShrU0_norm _).1, (jsShrU0_norm _).2, (jsShrU0_norm _).1, (jsShrU0_norm _).2⟩

theorem iota_norm (rc : Long) (s : State) (h : normState s) : normState (iota rc s) := by
  intro x y hx hy
  rcases eq_or_ne x 0 with rfl | hxne
  · rcases eq_or_ne y 0 with rfl | hyne
    · rw [iota]
      rcases getLane_setLane_or s 0 0 _ with heq | heq <;> rw [heq]
      · exact ⟨(jsShrU0_norm _).1, (jsShrU0_norm _).2, (jsShrU0_norm _).1, (jsShrU0_norm _).2⟩
      · exact h 0 0 hx hy
    · rw [iota, getLane_setLane_ne s _ (Or.inr (Ne.symm hyne))]
      exact h _ _ hx hy
  · rw [iota, getLane_setLane_ne s _ (Or.inl (Ne.symm hxne))]
    exact h _ _ hx hy

theorem keccakRound_norm (s : State) (rc : Long) : normState (keccakRound s rc) :=
  iota_norm rc _ (chi_norm _)

theorem foldl_keccakRound_norm (l : List Long) (s : State) (hl : l ≠ []) :
    normState (l.foldl keccakRound s) := by
  induction l generalizing s with
  | nil => exact absurd rfl hl
  | cons r rest ih =>
    rw [List.foldl_cons]
    cases rest with
    | nil =>
      rw [List.foldl_nil]
      exact keccakRound_norm s r
    | cons r2 rest2 => exact ih _ (List.cons_ne_nil _ _)

set_option maxRecDepth 4000 in
theorem RC_length : RC.length = 24 := by rfl

theorem RC_ne_nil : RC ≠ [] := by
  have h := RC_length
  intro hnil
  rw [hnil] at h
  simp at h

theorem keccak_f_1600_norm (s : State) : normState (keccak_f_1600 s) :=
  foldl_keccakRound_norm RC s RC_ne_nil

/-! ## Hex rendering: the JS variable-width `toString(16)` with padding is
fixed-width hex -/

theorem hexVarAux_length_le (f : Nat) : ∀ n, (hexVarAux f n).length ≤ f := by
  induction f with
  | zero => intro n; simp [hexVarAux]
  | succ k ih =>
    intro n
    rw [hexVarAux]
    split
    · simp
    · rw [List.length_append]
      have := ih (n / 16)
      simp only [List.length_cons, List.length_nil]
      omega

theorem hexVarAux_stable (f₁ : Nat) : ∀ f₂ n, 0 < f₁ → 0 < f₂ → n < 16 ^ f₁ → n < 16 ^ f₂ →
    hexVarAux f₁ n = hexVarAux f₂ n := by
  induction f₁ with
  | zero => omega
  | succ k ih =>
    intro f₂ n _ hf2 hn1 hn2
    cases f₂ with
    | zero => omega
    | succ k2 =>
      rw [hexVarAux, hexVarAux]
      by_cases h16 : n < 16
      · simp [h16]
      · rw [if_neg h16, if_neg h16]
        have hk : 0 < k := by
          rcases Nat.eq_zero_or_pos k with rfl | h
          · rw [pow_one] at hn1; omega
          · exact h
        have hk2 : 0 < k2 := by
          rcases Nat.eq_zero_or_pos k2 with rfl | h
          · rw [pow_one] at hn2; omega
          · exact h
        have hd1 : n / 16 < 16 ^ k := by
          rw [Nat.div_lt_iff_lt_mul (by norm_num)]
          calc n < 16 ^ (k+1) := hn1
            _ = 16 ^ k * 16 := by rw [pow_succ]
        have hd2 : n / 16 < 16 ^ k2 := by
          rw [Nat.div_lt_iff_lt_mul (by norm_num)]
          calc n < 16 ^ (k2+1) := hn2
            _ = 16 ^ k2 * 16 := by rw [pow_succ]
        rw [ih k2 (n / 16) hk hk2 hd1 hd2]

theorem hexFixed_succ (w n : Nat) :
    hexFixed (w+1) n = Nat.digitChar (n / 16 ^ w % 16) :: hexFixed w n := by
  simp [hexFixed, List.range_succ]

theorem hexFixed_div (w : Nat) : ∀ n, hexFixed (w+1) n = hexFixed w (n / 16) ++ [Nat.digitChar (n % 16)] := by
  induction w with
  | zero => intro n; simp [hexFixed, List.range_succ]
  | succ k ih =>
    intro n
    rw [hexFixed_succ, ih n, hexFixed_succ]
    have harg : n / 16 / 16 ^ k = n / 16 ^ (k+1) := by
      rw [Nat.div_div_eq_div_mul, pow_succ, mul_comm]
    rw [List.cons_append, harg]

theorem hexFixed_small (f n : Nat) (hf : 0 < f) (hn : n < 16) :
    hexFixed f n = List.replicate (f-1) '0' ++ [Nat.digitChar n] := by
  induction f with
  | zero => omega
  | succ k ih =>
    rcases Nat.eq_zero_or_pos k with rfl | hk
    · simp [hexFixed, List.range_succ, Nat.mod_eq_of_lt hn]
    · rw [hexFixed_succ, ih hk]
      have hz : n / 16 ^ k = 0 := by
        refine Nat.div_eq_of_lt (lt_of_lt_of_le hn ?_)
        calc (16:Nat) = 16 ^ 1 := (pow_one 16).symm
          _ ≤ 16 ^ k := Nat.pow_le_pow_right (by norm_num) hk
      rw [hz]
      cases k with
      | zero => omega
      | succ k2 =>
        simp only [Nat.zero_mod, Nat.succ_sub_one]
        rw [List.replicate_succ]
        rfl

theorem hexVarAux_pad (f : Nat) : ∀ n, 0 < f → n < 16 ^ f →
    List.replicate (f - (hexVarAux f n).length) '0' ++ hexVarAux f n = hexFixed f n := by
  induction f with
  | zero => omega
  | succ k ih =>
    intro n _ hn
    rw [hexVarAux]
    by_cases h16 : n < 16
    · rw [if_pos h16]
      rw [hexFixed_small _ _ (Nat.succ_pos k) h16]
      simp only [List.length_cons, List.length_nil, Nat.succ_sub_one]
      have hr : k + 1 - (0 + 1) = k := by omega
      rw [hr]
    · rw [if_neg h16]
      have hk : 0 < k := by
        rcases Nat.eq_zero_or_pos k with rfl | h
        · rw [pow_one] at hn; omega
        · exact h
      have hdiv : n / 16 < 16 ^ k := by
        rw [Nat.div_lt_iff_lt_mul (by norm_num)]
        calc n < 16 ^ (k+1) := hn
          _ = 16 ^ k * 16 := by rw [pow_succ]
      rw [hexFixed_div]
      have hlen := hexVarAux_length_le k (n / 16)
      rw [List.length_append]
      simp only [List.length_cons, List.length_nil]
      have harith : (k+1) - ((hexVarAux k (n/16)).length + 1) = k - (hexVarAux k (n/16)).length := by
        omega
      rw [harith, ← List.append_assoc, ih (n/16) hk hdiv]

theorem jsPad8_small (s : List Char) (h : s.length ≤ 8) :
    jsPad8 s = List.replicate (8 - s.length) '0' ++ s := by
  rw [jsPad8]
  have hrep : List.replicate 8 '0' = List.replicate s.length '0' ++ List.replicate (8 - s.length) '0' := by
    rw [← List.replicate_add]
    congr 1
    omega
  rw [hrep, List.append_assoc, List.drop_left' (by simp)]

theorem jsPad8_hexVar (n : Nat) (h : n < 4294967296) : jsPad8 (hexVar n) = hexFixed 8 n := by
  have h8 : n < 16 ^ 8 := by norm_num [h]
  have hbig : n < 16 ^ (n+1) := by
    calc n < 2 ^ n := Nat.lt_two_pow n
      _ ≤ 16 ^ n := Nat.pow_le_pow_left (by norm_num) n
      _ ≤ 16 ^ (n+1) := Nat.pow_le_pow_right (by norm_num) (Nat.le_succ n)
  have hv : hexVar n = hexVarAux 8 n :=
    hexVarAux_stable (n+1) 8 n (Nat.succ_pos n) (by norm_num) hbig h8
  rw [hv, jsPad8_small _ (hexVarAux_length_le 8 n), hexVarAux_pad 8 n (by norm_num) h8]

theorem toChars_norm (v : Long) (h : normLong v) :
    Long.toChars v = hexFixed 8 v.hi.toNat ++ hexFixed 8 v.lo.toNat := by
  obtain ⟨h1, h2, h3, h4⟩ := h
  rw [Long.toChars, intToString16, if_neg (by omega), intToString16, if_neg (by omega),
      jsPad8_hexVar _ (by omega), jsPad8_hexVar _ (by omega)]

theorem hexFixed_length (w n : Nat) : (hexFixed w n).length = w := by
  simp [hexFixed]

theorem digitChar_hex (k : Nat) (h : k < 16) :
    isLowerHex (Nat.digitChar k) = true ∧ Nat.digitChar k ≠ '-' := by
  interval_cases k <;> exact ⟨rfl, by decide⟩

theorem hexFixed_chars (w n : Nat) {c : Char} (hc : c ∈ hexFixed w n) :
    isLowerHex c = true ∧ c ≠ '-' := by
  rw [hexFixed] at hc
  obtain ⟨i, _, rfl⟩ := List.mem_map.mp hc
  exact digitChar_hex _ (Nat.mod_lt _ (by norm_num))

/-! ## 64-bit values from 32-bit halves: bit-level facts -/

theorem testBit_ge_false {L j n : Nat} (hL : L < 2 ^ n) (hj : n ≤ j) : L.testBit j = false :=
  Nat.testBit_lt_two_pow (lt_of_lt_of_le hL (Nat.pow_le_pow_right (by norm_num) hj))

theorem testBit_combine {H L : Nat} (hL : L < 2 ^ 32) (j : Nat) :
    ((H <<< 32) ||| L).testBit j = if j < 32 then L.testBit j else H.testBit (j - 32) := by
  rw [Nat.testBit_or, Nat.testBit_shiftLeft]
  by_cases hj : j < 32
  · rw [if_pos hj]
    simp [Nat.not_le.mpr hj]
  · rw [if_neg hj]
    rw [testBit_ge_false hL (by omega)]
    simp [Nat.le_of_not_lt hj]

theorem combine_lt {H L : Nat} (hH : H < 2 ^ 32) (hL : L < 2 ^ 32) :
    (H <<< 32) ||| L < 2 ^ 64 := by
  apply Nat.or_lt_two_pow
  · rw [Nat.shiftLeft_eq]
    calc H * 2 ^ 32 < 2 ^ 32 * 2 ^ 32 := by
          exact Nat.mul_lt_mul_of_lt_of_le hH (le_refl _) (by norm_num)
      _ = 2 ^ 64 := by norm_num
  · exact lt_trans hL (by norm_num)

theorem val_lt (v : Long) : v.val < 2 ^ 64 :=
  combine_lt (u32_lt_pow v.hi) (u32_lt_pow v.lo)

theorem combine_xor {A C : Nat} (B D : Nat) (hB : B < 2 ^ 32) (hD : D < 2 ^ 32) :
    ((A <<< 32) ||| B) ^^^ ((C <<< 32) ||| D) = (((A ^^^ C)) <<< 32) ||| (B ^^^ D) := by
  apply Nat.eq_of_testBit_eq
  intro j
  rw [Nat.testBit_xor, testBit_combine hB j, testBit_combine hD j,
      testBit_combine (Nat.xor_lt_two_pow hB hD) j]
  by_cases hj : j < 32 <;> simp [hj, Nat.testBit_xor]

theorem combine_and {A C : Nat} (B D : Nat) (hB : B < 2 ^ 32) (hD : D < 2 ^ 32) :
    ((A <<< 32) ||| B) &&& ((C <<< 32) ||| D) = (((A &&& C)) <<< 32) ||| (B &&& D) := by
  apply Nat.eq_of_testBit_eq
  intro j
  rw [Nat.testBit_and, testBit_combine hB j, testBit_combine hD j,
      testBit_combine (Nat.and_lt_two_pow _ hD) j]
  by_cases hj : j < 32 <;> simp [hj, Nat.testBit_and]

/-! ## Rotation: bit-level characterization (C2) -/

theorem rot64_lt (m d : Nat) (hm : m < 2 ^ 64) : rot64 m d < 2 ^ 64 := by
  apply Nat.or_lt_two_pow
  · exact Nat.mod_lt _ (by norm_num)
  · have hle : m >>> (64 - d) ≤ m := by
      rw [Nat.shiftRight_eq_div_pow]
      exact Nat.div_le_self _ _
    omega

theorem testBit_rot64 (m d j : Nat) (hd1 : 1 ≤ d) (hd2 : d ≤ 63) (hj : j < 64)
    (hm : m < 2 ^ 64) :
    (rot64 m d).testBit j = if j < d then m.testBit (64 - d + j) else m.testBit (j - d) := by
  rw [rot64, Nat.testBit_or, Nat.testBit_mod_two_pow, Nat.testBit_shiftLeft,
      Nat.testBit_shiftRight]
  by_cases hjd : j < d
  · rw [if_pos hjd]
    simp [hj, Nat.not_le.mpr hjd]
  · rw [if_neg hjd]
    have hhigh : m.testBit (64 - d + j) = false := testBit_ge_false hm (by omega)
    simp [hj, Nat.le_of_not_lt hjd, hhigh]

theorem rot64_rot64 (m d : Nat) (hm : m < 2 ^ 64) (hd1 : 1 ≤ d) (hd2 : d ≤ 63) :
    rot64 (rot64 m d) (64 - d) = m := by
  apply Nat.eq_of_testBit_eq
  intro j
  by_cases hj : j < 64
  · rw [testBit_rot64 _ _ _ (by omega) (by omega) hj (rot64_lt m d hm)]
    by_cases h1 : j < 64 - d
    · rw [if_pos h1, testBit_rot64 m d _ hd1 hd2 (by omega) hm, if_neg (by omega)]
      congr 1
      omega
    · rw [if_neg h1, testBit_rot64 m d _ hd1 hd2 (by omega) hm, if_pos (by omega)]
      congr 1
      omega
  · rw [testBit_ge_false (rot64_lt _ _ (rot64_lt m d hm)) (by omega),
        testBit_ge_false hm (by omega)]

theorem combine_rot_small (H L : Nat) (hH : H < 2 ^ 32) (hL : L < 2 ^ 32) (k : Nat)
    (h1 : 1 ≤ k) (h2 : k ≤ 31) :
    ((((H <<< k) % 2 ^ 32) ||| (L >>> (32 - k))) <<< 32) ||| (((L <<< k) % 2 ^ 32) ||| (H >>> (32 - k)))
      = rot64 ((H <<< 32) ||| L) k := by
  have hshr : ∀ (X : Nat), X < 2 ^ 32 → X >>> (32 - k) < 2 ^ 32 := by
    intro X hX
    have : X >>> (32 - k) ≤ X := by
      rw [Nat.shiftRight_eq_div_pow]
      exact Nat.div_le_self _ _
    omega
  have hup : (H <<< k) % 2 ^ 32 ||| L >>> (32 - k) < 2 ^ 32 :=
    Nat.or_lt_two_pow (Nat.mod_lt _ (by norm_num)) (hshr L hL)
  have hlow : (L <<< k) % 2 ^ 32 ||| H >>> (32 - k) < 2 ^ 32 :=
    Nat.or_lt_two_pow (Nat.mod_lt _ (by norm_num)) (hshr H hH)
  apply Nat.eq_of_testBit_eq
  intro j
  by_cases hj : j < 64
  · rw [testBit_combine hlow j, testBit_rot64 _ k j h1 (by omega) hj (combine_lt hH hL)]
    by_cases hj32 : j < 32
    · rw [if_pos hj32]
      by_cases hjk : j < k
      · rw [if_pos hjk, testBit_combine hL, if_neg (by omega)]
        simp only [Nat.testBit_or, Nat.testBit_mod_two_pow, Nat.testBit_shiftLeft,
          Nat.testBit_shiftRight]
        have he : 64 - k + j - 32 = 32 - k + j := by omega
        simp [hj32, Nat.not_le.mpr hjk, he]
      · rw [if_neg hjk, testBit_combine hL, if_pos (by omega)]
        simp only [Nat.testBit_or, Nat.testBit_mod_two_pow, Nat.testBit_shiftLeft,
          Nat.testBit_shiftRight]
        have hHf : H.testBit (32 - k + j) = false := testBit_ge_false hH (by omega)
        simp [hj32, Nat.le_of_not_lt hjk, hHf]
    · rw [if_neg hj32]
      have hj32' : j - 32 < 32 := by omega
      by_cases hjk : j - 32 < k
      · rw [if_neg (by omega), testBit_combine hL, if_pos (by omega)]
        simp only [Nat.testBit_or, Nat.testBit_mod_two_pow, Nat.testBit_shiftLeft,
          Nat.testBit_shiftRight]
        have he : 32 - k + (j - 32) = j - k := by omega
        simp [hj32', Nat.not_le.mpr hjk, he]
      · rw [if_neg (by omega), testBit_combine hL, if_neg (by omega)]
        simp only [Nat.testBit_or, Nat.testBit_mod_two_pow, Nat.testBit_shiftLeft,
          Nat.testBit_shiftRight]
        have hLf : L.testBit (32 - k + (j - 32)) = false := testBit_ge_false hL (by omega)
        have he : j - 32 - k = j - k - 32 := by omega
        simp [hj32', Nat.le_of_not_lt hjk, hLf, he]
  · rw [testBit_ge_false (combine_lt hup hlow) (by omega),
        testBit_ge_false (rot64_lt _ _ (combine_lt hH hL)) (by omega)]

theorem combine_swap (H L : Nat) (hH : H < 2 ^ 32) (hL : L < 2 ^ 32) :
    (L <<< 32) ||| H = rot64 ((H <<< 32) ||| L) 32 := by
  apply Nat.eq_of_testBit_eq
  intro j
  by_cases hj : j < 64
  · rw [testBit_combine hH j, testBit_rot64 _ 32 j (by omega) (by omega) hj (combine_lt hH hL)]
    by_cases hj32 : j < 32
    · rw [if_pos hj32, if_pos hj32, testBit_combine hL, if_neg (by omega)]
      congr 1
      omega
    · rw [if_neg hj32, if_neg hj32, testBit_combine hL, if_pos (by omega)]
  · rw [testBit_ge_false (combine_lt hL hH) (by omega),
        testBit_ge_false (rot64_lt _ _ (combine_lt hH hL)) (by omega)]

theorem rot64_add32 (m k : Nat) (hm : m < 2 ^ 64) (h1 : 1 ≤ k) (h2 : k ≤ 31) :
    rot64 (rot64 m 32) k = rot64 m (32 + k) := by
  apply Nat.eq_of_testBit_eq
  intro j
  by_cases hj : j < 64
  · rw [testBit_rot64 _ k j h1 (by omega) hj (rot64_lt m 32 hm),
        testBit_rot64 m (32 + k) j (by omega) (by omega) hj hm]
    by_cases hjk : j < k
    · rw [if_pos hjk, if_pos (by omega : j < 32 + k),
          testBit_rot64 m 32 (64 - k + j) (by omega) (by omega) (by omega) hm,
          if_neg (by omega : ¬ (64 - k + j < 32))]
      congr 1
      omega
    · rw [if_neg hjk]
      by_cases hjk32 : j < 32 + k
      · rw [if_pos hjk32,
            testBit_rot64 m 32 (j - k) (by omega) (by omega) (by omega) hm,
            if_pos (by omega : j - k < 32)]
        congr 1
        omega
      · rw [if_neg hjk32,
            testBit_rot64 m 32 (j - k) (by omega) (by omega) (by omega) hm,
            if_neg (by omega : ¬ (j - k < 32))]
        congr 1
        omega
  · rw [testBit_ge_false (rot64_lt _ _ (rot64_lt m 32 hm)) (by omega),
        testBit_ge_false (rot64_lt _ _ hm) (by omega)]

theorem val_rotl (v : Long) (n : Nat) (h1 : 1 ≤ n) (h2 : n ≤ 63) :
    (v.rotl n).val = rot64 v.val n := by
  have h32 : (4294967296 : Nat) = 2 ^ 32 := by norm_num
  rcases Nat.lt_trichotomy n 32 with hn | hn | hn
  · rw [Long.rotl, if_pos hn]
    show (Long.mk (jsOr (jsShl v.hi n) (jsShrU v.lo (32 - n)))
          (jsOr (jsShl v.lo n) (jsShrU v.hi (32 - n)))).val = rot64 v.val n
    simp only [Long.val]
    rw [u32_jsOr, u32_jsOr, u32_jsShl, u32_jsShl, u32_jsShrU, u32_jsShrU,
        Nat.mod_eq_of_lt hn, Nat.mod_eq_of_lt (show 32 - n < 32 by omega), h32]
    exact combine_rot_small (u32 v.hi) (u32 v.lo) (u32_lt_pow v.hi) (u32_lt_pow v.lo) n h1
      (by omega)
  · rw [Long.rotl, if_neg (by omega), if_pos hn]
    simp only [Long.val]
    subst hn
    exact combine_swap (u32 v.hi) (u32 v.lo) (u32_lt_pow v.hi) (u32_lt_pow v.lo)
  · rw [Long.rotl, if_neg (by omega), if_neg (by omega)]
    show (Long.mk (jsOr (jsShl v.lo (n - 32)) (jsShrU v.hi (32 - (n - 32))))
          (jsOr (jsShl v.hi (n - 32)) (jsShrU v.lo (32 - (n - 32))))).val = rot64 v.val n
    simp only [Long.val]
    rw [u32_jsOr, u32_jsOr, u32_jsShl, u32_jsShl, u32_jsShrU, u32_jsShrU,
        Nat.mod_eq_of_lt (show n - 32 < 32 by omega),
        Nat.mod_eq_of_lt (show 32 - (n - 32) < 32 by omega), h32,
        combine_rot_small (u32 v.lo) (u32 v.hi) (u32_lt_pow v.lo) (u32_lt_pow v.hi) (n - 32)
          (by omega) (by omega),
        combine_swap (u32 v.hi) (u32 v.lo) (u32_lt_pow v.hi) (u32_lt_pow v.lo),
        rot64_add32 _ (n - 32) (combine_lt (u32_lt_pow v.hi) (u32_lt_pow v.lo))
          (by omega) (by omega)]
    congr 1
    omega

/-- C2 (counterexample): with `d = 0` (and hence `64 − d = 64`) the
round-trip fails on the value with `hi = 1`, `lo = 0`, because JS shift
counts are reduced mod 32 (`hi >>> 32` is `hi >>> 0`), so neither `d = 0`
nor `d = 64` acts as the identity rotation. -/
theorem C2_cex : (((Long.mk 1 0).rotl 0).rotl (64 - 0)).val ≠ (Long.mk 1 0).val := by
  decide

/-- C2 (amended): for every `Long` `v` and every rotation amount
`d ∈ [1, 63]`, `rotl (rotl v d) (64 − d)` represents the same 64-bit value
as `v`. (The claim's `d = 0` / `d = 64` identity part is false: JS `<<` and
`>>>` reduce shift counts mod 32, so `rotl` by 0 or 64 folds the two halves
together instead of acting as the identity.) -/
theorem C2_rotl_roundtrip (v : Long) (d : Nat) (h1 : 1 ≤ d) (h2 : d ≤ 63) :
    ((v.rotl d).rotl (64 - d)).val = v.val := by
  rw [val_rotl _ (64 - d) (by omega) (by omega), val_rotl v d h1 h2]
  exact rot64_rot64 v.val d (val_lt v) h1 h2

/-- C2 witness: the round-trip theorem applied at a concrete value and
`d = 7`. -/
theorem C2_rotl_roundtrip_witness :
    (((Long.mk 19088743 2309737967).rotl 7).rotl (64 - 7)).val = (Long.mk 19088743 2309737967).val :=
  C2_rotl_roundtrip (Long.mk 19088743 2309737967) 7 (by decide) (by decide)

/-- C3: for every message, bitrate-in-bytes `r/8 > 0` and padding domain,
the padded message's length is an exact multiple of `r/8`; with
`q = r/8 − (len(M) mod r/8)`, if `q = 1` a single byte 0x86 (sha-3) or
0x81 (keccak) is appended, and otherwise the pad is 0x06/0x01, then `q − 2`
zero bytes, then 0x80. -/
theorem C3_padding (rateBytes : Nat) (hr : 0 < rateBytes) (kp : Bool) (msg : List Nat) :
    (padMsg rateBytes kp msg).length % rateBytes = 0 ∧
    (rateBytes - msg.length % rateBytes = 1 →
      padMsg rateBytes kp msg = msg ++ [if kp then 0x81 else 0x86]) ∧
    (rateBytes - msg.length % rateBytes ≠ 1 →
      padMsg rateBytes kp msg =
        msg ++ [if kp then 0x01 else 0x06]
            ++ List.replicate (rateBytes - msg.length % rateBytes - 2) 0x00 ++ [0x80]) := by
  refine ⟨padMsg_mod rateBytes hr kp msg, ?_, ?_⟩
  · intro h
    rw [padMsg, if_pos h]
  · intro h
    rw [padMsg, if_neg h]

/-- C3 witness: the padding theorem at the SHA3-256 rate and a 1-byte
message. -/
theorem C3_padding_witness :
    (padMsg 136 false [0x61]).length % 136 = 0 ∧
    (136 - [0x61].length % 136 = 1 →
      padMsg 136 false [0x61] = [0x61] ++ [if false then 0x81 else 0x86]) ∧
    (136 - [0x61].length % 136 ≠ 1 →
      padMsg 136 false [0x61] =
        [0x61] ++ [if false then 0x01 else 0x06]
            ++ List.replicate (136 - [0x61].length % 136 - 2) 0x00 ++ [0x80]) :=
  C3_padding 136 (by decide) false [0x61]

/-- C8: after `keccak_f_1600` returns, every lane of the 5 × 5 state has
`hi` and `lo` normalized to non-negative values below `2^32` (by the
`>>> 0` in the χ and ι steps), so `Long.toString` on a post-permutation
lane is exactly 16 lowercase hex digits with no minus sign — even though
lane halves can be negative during the absorption xor and during θ. -/
theorem C8_normalization :
    (∀ (s : State) (x y : Nat), x < 5 → y < 5 →
      normLong (getLane (keccak_f_1600 s) x y) ∧
      (Long.toChars (getLane (keccak_f_1600 s) x y)).length = 16 ∧
      (∀ c ∈ Long.toChars (getLane (keccak_f_1600 s) x y), isLowerHex c = true ∧ c ≠ '-')) ∧
    (∃ block : List Nat, (getLane (absorbBlock 1 block initState) 0 0).lo < 0) ∧
    (∃ s : State, (getLane (theta s) 0 0).hi < 0) := by
  refine ⟨?_, ⟨[0, 0, 0, 128, 0, 0, 0, 0], by decide⟩,
    ⟨setLane initState 0 0 (Long.mk 2147483648 0), by decide⟩⟩
  intro s x y hx hy
  have hn := keccak_f_1600_norm s x y hx hy
  have hchars := toChars_norm _ hn
  refine ⟨hn, ?_, ?_⟩
  · rw [hchars, List.length_append, hexFixed_length, hexFixed_length]
  · intro c hc
    rw [hchars] at hc
    rcases List.mem_append.mp hc with h | h
    · exact hexFixed_chars _ _ h
    · exact hexFixed_chars _ _ h

/-- C8 witness: the normalization theorem applied to the all-zero state at
lane (1, 2). -/
theorem C8_normalization_witness :
    normLong (getLane (keccak_f_1600 initState) 1 2) ∧
    (Long.toChars (getLane (keccak_f_1600 initState) 1 2)).length = 16 ∧
    (∀ c ∈ Long.toChars (getLane (keccak_f_1600 initState) 1 2), isLowerHex c = true ∧ c ≠ '-') :=
  C8_normalization.1 initState 1 2 (by decide) (by decide)

/-! ## C4: round structure, χ and ι -/

theorem Wf_col_length {s : State} (h : Wf s) {x : Nat} (hx : x < 5) :
    (s.getD x []).length = 5 := by
  obtain ⟨hlen, hcols⟩ := h
  have hx' : x < s.length := by omega
  rw [List.getD_eq_getElem?_getD, List.getElem?_eq_getElem hx']
  exact hcols _ (List.getElem_mem _)

theorem getLane_chi (a : State) (x y : Nat) (hx : x < 5) (hy : y < 5) :
    (getLane (chi a) x y).val =
      (getLane a x y).val ^^^
        (compl64 (getLane a ((x+1) % 5) y).val &&& (getLane a ((x+2) % 5) y).val) := by
  rw [chi, getLane_map5 _ _ _ hx hy]
  simp only [Long.val]
  rw [u32_jsShrU0, u32_jsShrU0, u32_jsXor, u32_jsXor, u32_jsAnd, u32_jsAnd,
      u32_jsNot, u32_jsNot, compl64]
  have hmask : (2:Nat) ^ 64 - 1 = ((4294967295 <<< 32) ||| 4294967295) := by decide
  rw [hmask,
      combine_xor _ _ (u32_lt_pow _) (by norm_num),
      combine_and _ _ (Nat.xor_lt_two_pow (u32_lt_pow _) (by norm_num)) (u32_lt_pow _),
      combine_xor _ _ (u32_lt_pow _)
        (Nat.and_lt_two_pow _ (u32_lt_pow _))]

theorem getLane_iota_zero (rc : Long) (a : State) (hwf : Wf a) :
    (getLane (iota rc a) 0 0).val = (getLane a 0 0).val ^^^ rc.val := by
  rw [iota, getLane_setLane_self a _ (by rw [hwf.1]; omega)
        (by rw [Wf_col_length hwf (by omega)]; omega)]
  simp only [Long.val]
  rw [u32_jsShrU0, u32_jsShrU0, u32_jsXor, u32_jsXor,
      combine_xor _ _ (u32_lt_pow _) (u32_lt_pow _)]

theorem getLane_iota_ne (rc : Long) (a : State) (x y : Nat) (h : ¬(x = 0 ∧ y = 0)) :
    getLane (iota rc a) x y = getLane a x y := by
  rw [iota]
  apply getLane_setLane_ne
  rcases not_and_or.mp h with h | h
  · exact Or.inl (Ne.symm h)
  · exact Or.inr (Ne.symm h)

/-- C4: `keccak_f_1600` applies exactly 24 rounds (one per round constant),
each round running θ, ρ, π, χ, ι in that order; χ computes, for every lane,
`lane(x,y) XOR (NOT lane((x+1)%5,y) AND lane((x+2)%5,y))` from the
unmodified input plane; ι xors the round constant into lane (0,0) and
leaves the other 24 lanes unchanged. -/
theorem C4_rounds :
    RC.length = 24 ∧
    (∀ a : State, keccak_f_1600 a = RC.foldl (fun s rc => iota rc (chi (rhoPi (theta s)))) a) ∧
    (∀ (a : State) (x y : Nat), x < 5 → y < 5 →
      (getLane (chi a) x y).val =
        (getLane a x y).val ^^^
          (compl64 (getLane a ((x+1) % 5) y).val &&& (getLane a ((x+2) % 5) y).val)) ∧
    (∀ (rc : Long) (a : State), Wf a →
      (getLane (iota rc a) 0 0).val = (getLane a 0 0).val ^^^ rc.val) ∧
    (∀ (rc : Long) (a : State) (x y : Nat), x < 5 → y < 5 → ¬(x = 0 ∧ y = 0) →
      getLane (iota rc a) x y = getLane a x y) :=
  ⟨RC_length, fun _ => rfl, getLane_chi,
   fun rc a hwf => getLane_iota_zero rc a hwf,
   fun rc a x y _ _ h => getLane_iota_ne rc a x y h⟩

/-- C4 witness: the χ formula and the ι non-interference applied at
concrete states and lane coordinates. -/
theorem C4_rounds_witness :
    ((getLane (chi (setLane initState 2 2 (Long.mk 3 5))) 1 2).val =
      (getLane (setLane initState 2 2 (Long.mk 3 5)) 1 2).val ^^^
        (compl64 (getLane (setLane initState 2 2 (Long.mk 3 5)) ((1+1) % 5) 2).val &&&
          (getLane (setLane initState 2 2 (Long.mk 3 5)) ((1+2) % 5) 2).val)) ∧
    (getLane (iota (Long.mk 0 1) initState) 0 0).val = (getLane initState 0 0).val ^^^ (Long.mk 0 1).val ∧
    getLane (iota (Long.mk 0 1) initState) 2 1 = getLane initState 2 1 :=
  ⟨C4_rounds.2.2.1 (setLane initState 2 2 (Long.mk 3 5)) 1 2 (by decide) (by decide),
   C4_rounds.2.2.2.1 (Long.mk 0 1) initState (by simp [Wf, initState, List.mem_replicate]),
   C4_rounds.2.2.2.2 (Long.mk 0 1) initState 2 1 (by decide) (by decide) (by decide)⟩

/-! ## C5 groundwork (absorption): what one block does to the state -/

theorem jsShl_byte (b : Nat) (hb : b < 256) (k : Nat) (hk : k ≤ 24) :
    jsShl ((b : Nat) : Int) k = toInt32 (((b * 2 ^ k : Nat)) : Int) := by
  rw [jsShl, u32_cast b (by omega)]
  have hmod : k % 32 = k := Nat.mod_eq_of_lt (by omega)
  have hlt : b * 2 ^ k < 4294967296 := by
    calc b * 2 ^ k ≤ 255 * 2 ^ 24 :=
          Nat.mul_le_mul (by omega) (Nat.pow_le_pow_right (by norm_num) hk)
      _ < 4294967296 := by norm_num
  rw [hmod, Nat.shiftLeft_eq, Nat.mod_eq_of_lt hlt]

theorem u32_byte_sum (b0 b1 b2 b3 : Nat) (h0 : b0 < 256) (h1 : b1 < 256) (h2 : b2 < 256)
    (h3 : b3 < 256) :
    u32 (jsShl ((b0 : Nat) : Int) 0 + jsShl ((b1 : Nat) : Int) 8 +
         jsShl ((b2 : Nat) : Int) 16 + jsShl ((b3 : Nat) : Int) 24)
      = b0 + b1 * 2 ^ 8 + b2 * 2 ^ 16 + b3 * 2 ^ 24 := by
  rw [jsShl_byte b0 h0 0 (by omega), jsShl_byte b1 h1 8 (by omega),
      jsShl_byte b2 h2 16 (by omega), jsShl_byte b3 h3 24 (by omega)]
  simp only [toInt32]
  split_ifs <;> (unfold u32 toUint32; omega)

theorem getD_lt_of_bytes {block : List Nat} (hb : ∀ b ∈ block, b < 256) (i : Nat) :
    block.getD i 0 < 256 := by
  rcases Nat.lt_or_ge i block.length with h | h
  · rw [List.getD_eq_getElem?_getD, List.getElem?_eq_getElem h]
    exact hb _ (List.getElem_mem _)
  · rw [List.getD_eq_getElem?_getD, List.getElem?_eq_none (by omega)]
    norm_num

theorem u32_laneLo {block : List Nat} (hb : ∀ b ∈ block, b < 256) (j : Nat) :
    u32 (laneLo block j) = block.getD (j*8) 0 + block.getD (j*8+1) 0 * 2 ^ 8 +
      block.getD (j*8+2) 0 * 2 ^ 16 + block.getD (j*8+3) 0 * 2 ^ 24 := by
  have h := u32_byte_sum (block.getD (j*8+0) 0) (block.getD (j*8+1) 0)
    (block.getD (j*8+2) 0) (block.getD (j*8+3) 0)
    (getD_lt_of_bytes hb _) (getD_lt_of_bytes hb _) (getD_lt_of_bytes hb _)
    (getD_lt_of_bytes hb _)
  simpa [laneLo] using h

theorem u32_laneHi {block : List Nat} (hb : ∀ b ∈ block, b < 256) (j : Nat) :
    u32 (laneHi block j) = block.getD (j*8+4) 0 + block.getD (j*8+5) 0 * 2 ^ 8 +
      block.getD (j*8+6) 0 * 2 ^ 16 + block.getD (j*8+7) 0 * 2 ^ 24 := by
  have h := u32_byte_sum (block.getD (j*8+4) 0) (block.getD (j*8+5) 0)
    (block.getD (j*8+6) 0) (block.getD (j*8+7) 0)
    (getD_lt_of_bytes hb _) (getD_lt_of_bytes hb _) (getD_lt_of_bytes hb _)
    (getD_lt_of_bytes hb _)
  simpa [laneHi] using h

theorem combine_eq_add (H L : Nat) (hL : L < 2 ^ 32) : (H <<< 32) ||| L = H * 2 ^ 32 + L := by
  rw [Nat.shiftLeft_eq, Nat.mul_comm H (2 ^ 32), ← Nat.mul_add_lt_is_or hL H,
      Nat.mul_comm (2 ^ 32) H]

theorem Wf_setLane {s : State} (h : Wf s) {x : Nat} (hx : x < 5) (y : Nat) (v : Long) :
    Wf (setLane s x y v) := by
  obtain ⟨h1, h2⟩ := h
  refine ⟨by rw [setLane, List.length_set]; exact h1, ?_⟩
  intro c hc
  rw [setLane] at hc
  rcases List.mem_or_eq_of_mem_set hc with hmem | heq
  · exact h2 c hmem
  · subst heq
    rw [List.length_set]
    exact Wf_col_length ⟨h1, h2⟩ hx

theorem absorbBlock_succ (n : Nat) (block : List Nat) (s : State) :
    absorbBlock (n+1) block s =
      setLane (absorbBlock n block s) (n % 5) (n / 5)
        (Long.mk (jsXor (getLane (absorbBlock n block s) (n % 5) (n / 5)).hi (laneHi block n))
                 (jsXor (getLane (absorbBlock n block s) (n % 5) (n / 5)).lo (laneLo block n))) := by
  rw [absorbBlock, absorbBlock, List.range_succ, List.foldl_append, List.foldl_cons,
      List.foldl_nil]

theorem Wf_absorbBlock (nL : Nat) (block : List Nat) {s : State} (h : Wf s) :
    Wf (absorbBlock nL block s) := by
  induction nL with
  | zero => exact h
  | succ n ih =>
    rw [absorbBlock_succ]
    exact Wf_setLane ih (Nat.mod_lt _ (by norm_num)) _ _

theorem absorbBlock_getLane_ge (nL : Nat) (block : List Nat) (s : State) (x y : Nat)
    (h : nL ≤ 5*y+x) :
    getLane (absorbBlock nL block s) x y = getLane s x y := by
  induction nL with
  | zero => rfl
  | succ n ih =>
    rw [absorbBlock_succ]
    have hne : n % 5 ≠ x ∨ n / 5 ≠ y := by
      by_contra hc
      push_neg at hc
      have : n = 5 * (n / 5) + n % 5 := by omega
      omega
    rw [getLane_setLane_ne _ _ hne]
    exact ih (by omega)

theorem absorbBlock_getLane_lt (nL : Nat) (block : List Nat) (s : State) (x y : Nat)
    (hx : x < 5) (hy : y < 5) (hj : 5*y+x < nL) (hwf : Wf s) :
    getLane (absorbBlock nL block s) x y =
      Long.mk (jsXor (getLane s x y).hi (laneHi block (5*y+x)))
              (jsXor (getLane s x y).lo (laneLo block (5*y+x))) := by
  induction nL with
  | zero => omega
  | succ n ih =>
    rw [absorbBlock_succ]
    by_cases hcase : 5*y+x = n
    · have hx5 : n % 5 = x := by omega
      have hy5 : n / 5 = y := by omega
      rw [hx5, hy5,
          getLane_setLane_self _ _ (by rw [(Wf_absorbBlock n block hwf).1]; omega)
            (by rw [Wf_col_length (Wf_absorbBlock n block hwf) hx]; omega),
          absorbBlock_getLane_ge n block s x y (by omega), hcase]
    · have hne : n % 5 ≠ x ∨ n / 5 ≠ y := by
        by_contra hc
        push_neg at hc
        have : n = 5 * (n / 5) + n % 5 := by omega
        omega
      rw [getLane_setLane_ne _ _ hne]
      exact ih (by omega)

theorem absorbBlock_val (nL : Nat) (block : List Nat) (s : State) (x y : Nat)
    (hx : x < 5) (hy : y < 5) (hj : 5*y+x < nL) (hwf : Wf s)
    (hb : ∀ b ∈ block, b < 256) :
    (getLane (absorbBlock nL block s) x y).val =
      (getLane s x y).val ^^^ leVal8 block ((5*y+x)*8) := by
  rw [absorbBlock_getLane_lt nL block s x y hx hy hj hwf]
  simp only [Long.val]
  rw [u32_jsXor, u32_jsXor, ← combine_xor _ _ (u32_lt_pow _) (u32_lt_pow _)]
  congr 1
  rw [u32_laneHi hb, u32_laneLo hb,
      combine_eq_add _ _ (by
        have h0 := getD_lt_of_bytes hb ((5*y+x)*8)
        have h1 := getD_lt_of_bytes hb ((5*y+x)*8+1)
        have h2 := getD_lt_of_bytes hb ((5*y+x)*8+2)
        have h3 := getD_lt_of_bytes hb ((5*y+x)*8+3)
        omega),
      leVal8]
  ring_nf

/-! ## C5 groundwork (squeeze): per-lane little-endian serialization -/

theorem length_two (l : List Char) (h : l.length = 2) : ∃ a b, l = [a, b] := by
  cases l with
  | nil => simp at h
  | cons a t =>
    cases t with
    | nil => simp at h
    | cons b t2 =>
      cases t2 with
      | nil => exact ⟨a, b, rfl⟩
      | cons c t3 => simp at h

theorem hexFixed_byte_peel (w n : Nat) :
    hexFixed (w+2) n = hexFixed w (n / 256) ++ hexFixed 2 (n % 256) := by
  have e1 : hexFixed (w+2) n = hexFixed w (n / 16 / 16) ++ [Nat.digitChar (n / 16 % 16), Nat.digitChar (n % 16)] := by
    rw [hexFixed_div (w+1) n, hexFixed_div w (n / 16), List.append_assoc]
    rfl
  have e2 : hexFixed 2 (n % 256) = [Nat.digitChar (n % 256 / 16 % 16), Nat.digitChar (n % 256 % 16)] := by
    rw [hexFixed_div 1 (n % 256), hexFixed_div 0 (n % 256 / 16)]
    rw [hexFixed]
    simp
  rw [e1, e2]
  have a1 : n / 16 / 16 = n / 256 := by omega
  have a2 : n / 16 % 16 = n % 256 / 16 % 16 := by omega
  have a3 : n % 16 = n % 256 % 16 := by omega
  rw [a1, a2, a3]

theorem hexFixed8_bytes (X : Nat) :
    hexFixed 8 X = hexFixed 2 (X / 256 / 256 / 256) ++ (hexFixed 2 (X / 256 / 256 % 256) ++
      (hexFixed 2 (X / 256 % 256) ++ hexFixed 2 (X % 256))) := by
  rw [show (8 : Nat) = 6 + 2 from rfl, hexFixed_byte_peel 6 X,
      show (6 : Nat) = 4 + 2 from rfl, hexFixed_byte_peel 4 (X / 256),
      show (4 : Nat) = 2 + 2 from rfl, hexFixed_byte_peel 2 (X / 256 / 256)]
  simp [List.append_assoc]

theorem chunk2_flatten_8 (p1 p2 p3 p4 p5 p6 p7 p8 : List Char)
    (l1 : p1.length = 2) (l2 : p2.length = 2) (l3 : p3.length = 2) (l4 : p4.length = 2)
    (l5 : p5.length = 2) (l6 : p6.length = 2) (l7 : p7.length = 2) (l8 : p8.length = 2) :
    (chunk2 (p1 ++ (p2 ++ (p3 ++ (p4 ++ (p5 ++ (p6 ++ (p7 ++ p8)))))))).reverse.flatten
      = p8 ++ (p7 ++ (p6 ++ (p5 ++ (p4 ++ (p3 ++ (p2 ++ p1)))))) := by
  obtain ⟨a1, b1, rfl⟩ := length_two p1 l1
  obtain ⟨a2, b2, rfl⟩ := length_two p2 l2
  obtain ⟨a3, b3, rfl⟩ := length_two p3 l3
  obtain ⟨a4, b4, rfl⟩ := length_two p4 l4
  obtain ⟨a5, b5, rfl⟩ := length_two p5 l5
  obtain ⟨a6, b6, rfl⟩ := length_two p6 l6
  obtain ⟨a7, b7, rfl⟩ := length_two p7 l7
  obtain ⟨a8, b8, rfl⟩ := length_two p8 l8
  rfl

theorem lane_chunks (v : Long) (h : normLong v) :
    (chunk2 (Long.toChars v)).reverse.flatten = hexOfBytes (leBytes8 v.val) := by
  obtain ⟨h1, h2, h3, h4⟩ := h
  rw [toChars_norm v ⟨h1, h2, h3, h4⟩]
  have hH : v.hi.toNat < 4294967296 := by omega
  have hL : v.lo.toNat < 4294967296 := by omega
  have hval : v.val = v.hi.toNat * 4294967296 + v.lo.toNat := by
    rw [Long.val, u32_nonneg_eq _ h1 h2, u32_nonneg_eq _ h3 h4,
        combine_eq_add _ _ (by omega)]
    norm_num
  rw [hexFixed8_bytes v.hi.toNat, hexFixed8_bytes v.lo.toNat, hval]
  set H := v.hi.toNat
  set L := v.lo.toNat
  simp only [List.append_assoc]
  rw [chunk2_flatten_8 _ _ _ _ _ _ _ _ (hexFixed_length 2 _) (hexFixed_length 2 _)
    (hexFixed_length 2 _) (hexFixed_length 2 _) (hexFixed_length 2 _) (hexFixed_length 2 _)
    (hexFixed_length 2 _) (hexFixed_length 2 _)]
  rw [hexOfBytes, leBytes8]
  simp only [List.flatMap_cons, List.flatMap_nil, List.append_nil]
  refine congrArg₂ (· ++ ·) (congrArg (hexFixed 2) (by omega)) ?_
  refine congrArg₂ (· ++ ·) (congrArg (hexFixed 2) (by omega)) ?_
  refine congrArg₂ (· ++ ·) (congrArg (hexFixed 2) (by omega)) ?_
  refine congrArg₂ (· ++ ·) (congrArg (hexFixed 2) (by omega)) ?_
  refine congrArg₂ (· ++ ·) (congrArg (hexFixed 2) (by omega)) ?_
  refine congrArg₂ (· ++ ·) (congrArg (hexFixed 2) (by omega)) ?_
  refine congrArg₂ (· ++ ·) (congrArg (hexFixed 2) (by omega)) (congrArg (hexFixed 2) (by omega))

theorem squeeze_flatten (s : State) (hn : normState s) :
    ((List.range 5).map (fun y => ((List.range 5).map (fun x =>
        ((chunk2 (Long.toChars (getLane s x y))).reverse).flatten)).flatten)).flatten
      = hexOfBytes (serializeState s) := by
  have h00 := lane_chunks (getLane s 0 0) (hn 0 0 (by omega) (by omega))
  have h10 := lane_chunks (getLane s 1 0) (hn 1 0 (by omega) (by omega))
  have h20 := lane_chunks (getLane s 2 0) (hn 2 0 (by omega) (by omega))
  have h30 := lane_chunks (getLane s 3 0) (hn 3 0 (by omega) (by omega))
  have h40 := lane_chunks (getLane s 4 0) (hn 4 0 (by omega) (by omega))
  have h01 := lane_chunks (getLane s 0 1) (hn 0 1 (by omega) (by omega))
  have h11 := lane_chunks (getLane s 1 1) (hn 1 1 (by omega) (by omega))
  have h21 := lane_chunks (getLane s 2 1) (hn 2 1 (by omega) (by omega))
  have h31 := lane_chunks (getLane s 3 1) (hn 3 1 (by omega) (by omega))
  have h41 := lane_chunks (getLane s 4 1) (hn 4 1 (by omega) (by omega))
  have h02 := lane_chunks (getLane s 0 2) (hn 0 2 (by omega) (by omega))
  have h12 := lane_chunks (getLane s 1 2) (hn 1 2 (by omega) (by omega))
  have h22 := lane_chunks (getLane s 2 2) (hn 2 2 (by omega) (by omega))
  have h32 := lane_chunks (getLane s 3 2) (hn 3 2 (by omega) (by omega))
  have h42 := lane_chunks (getLane s 4 2) (hn 4 2 (by omega) (by omega))
  have h03 := lane_chunks (getLane s 0 3) (hn 0 3 (by omega) (by omega))
  have h13 := lane_chunks (getLane s 1 3) (hn 1 3 (by omega) (by omega))
  have h23 := lane_chunks (getLane s 2 3) (hn 2 3 (by omega) (by omega))
  have h33 := lane_chunks (getLane s 3 3) (hn 3 3 (by omega) (by omega))
  have h43 := lane_chunks (getLane s 4 3) (hn 4 3 (by omega) (by omega))
  have h04 := lane_chunks (getLane s 0 4) (hn 0 4 (by omega) (by omega))
  have h14 := lane_chunks (getLane s 1 4) (hn 1 4 (by omega) (by omega))
  have h24 := lane_chunks (getLane s 2 4) (hn 2 4 (by omega) (by omega))
  have h34 := lane_chunks (getLane s 3 4) (hn 3 4 (by omega) (by omega))
  have h44 := lane_chunks (getLane s 4 4) (hn 4 4 (by omega) (by omega))
  rw [serializeState]
  simp only [List.range_succ, List.range_zero, List.map_append, List.map_cons, List.map_nil,
    List.flatten_append, List.flatten_cons, List.flatten_nil, List.append_nil, List.nil_append,
    List.flatMap_append, List.flatMap_cons, List.flatMap_nil]
  norm_num
  rw [h00, h10, h20, h30, h40, h01, h11, h21, h31, h41, h02, h12, h22, h32, h42, h03, h13, h23, h33, h43, h04, h14, h24, h34, h44]
  simp only [hexOfBytes, List.flatMap_append, List.flatMap_cons, List.flatMap_nil,
    List.append_nil, List.append_assoc]

theorem hexOfBytes_take (bs : List Nat) (k : Nat) :
    (hexOfBytes bs).take (2 * k) = hexOfBytes (bs.take k) := by
  induction bs generalizing k with
  | nil => simp [hexOfBytes]
  | cons b rest ih =>
    cases k with
    | zero => simp [hexOfBytes]
    | succ k2 =>
      obtain ⟨c1, c2, hpair⟩ := length_two (hexFixed 2 b) (hexFixed_length 2 b)
      simp only [hexOfBytes, List.flatMap_cons] at *
      rw [hpair]
      have harith : 2 * (k2 + 1) = 2 * k2 + 1 + 1 := by ring
      rw [harith]
      simp only [List.cons_append, List.nil_append]
      rw [List.take_succ_cons, List.take_succ_cons, List.take_succ_cons,
          List.flatMap_cons, hpair, ih k2]
      simp only [List.cons_append, List.nil_append]

theorem hexOfBytes_length (bs : List Nat) : (hexOfBytes bs).length = 2 * bs.length := by
  induction bs with
  | nil => simp [hexOfBytes]
  | cons b rest ih =>
    simp only [hexOfBytes, List.flatMap_cons, List.length_append, hexFixed_length,
      List.length_cons] at *
    omega

set_option maxRecDepth 4000 in
theorem serializeState_length (s : State) : (serializeState s).length = 200 := by
  rw [serializeState]
  simp [List.range_succ, leBytes8]

theorem hexOfBytes_chars (bs : List Nat) {c : Char} (hc : c ∈ hexOfBytes bs) :
    isLowerHex c = true ∧ c ≠ '-' := by
  rw [hexOfBytes] at hc
  obtain ⟨b, _, hmem⟩ := List.mem_flatMap.mp hc
  exact hexFixed_chars 2 b hmem

/-- The squeeze phase refines the spec's serialization: on a normalized
state the hex-string fiddling of line 146 is exactly the first `l/8` bytes
of the `5y+x`-ordered little-endian state serialization, in lowercase hex. -/
theorem squeeze_refines (s : State) (l : Nat) (hn : normState s) (hl : l % 8 = 0) :
    squeezeChars s l = hexOfBytes ((serializeState s).take (l / 8)) := by
  rw [squeezeChars, squeeze_flatten s hn]
  have harith : l / 4 = 2 * (l / 8) := by omega
  rw [harith, hexOfBytes_take]

/-- C5: absorption xors lane `j` of each block (decoded as a little-endian
64-bit value from bytes `8j..8j+7`) into state lane `(j mod 5, j div 5)`
for `j < r/64` and touches no other lane; the sponge core permutes after
each block; and the squeeze serializes the state in `index = 5y + x` lane
order, each lane little-endian, truncated to `l/8` bytes. -/
theorem C5_sponge_layout :
    (∀ (nL : Nat) (block : List Nat) (s : State) (x y : Nat), x < 5 → y < 5 → Wf s →
      (∀ b ∈ block, b < 256) →
      (5*y+x < nL →
        (getLane (absorbBlock nL block s) x y).val
          = (getLane s x y).val ^^^ leVal8 block ((5*y+x)*8)) ∧
      (nL ≤ 5*y+x → getLane (absorbBlock nL block s) x y = getLane s x y)) ∧
    (∀ (r c : Nat) (kp : Bool) (msg : List Nat),
      keccak1600core r c kp msg =
        squeezeChars ((chunks (r/8) (padMsg (r/8) kp msg)).foldl
          (fun s b => keccak_f_1600 (absorbBlock (r/64) b s)) initState) (c/2)) ∧
    (∀ (s : State) (l : Nat), normState s → l % 8 = 0 →
      squeezeChars s l = hexOfBytes ((serializeState s).take (l / 8))) := by
  refine ⟨?_, fun r c kp msg => rfl, fun s l hn hl => squeeze_refines s l hn hl⟩
  intro nL block s x y hx hy hwf hb
  exact ⟨fun hj => absorbBlock_val nL block s x y hx hy hj hwf hb,
         fun hj => absorbBlock_getLane_ge nL block s x y hj⟩

/-- C5 witness: the layout theorem applied to a concrete block, state and
lane, and to a concrete squeeze. -/
theorem C5_sponge_layout_witness :
    ((5*0+1 < 2 →
      (getLane (absorbBlock 2 (List.range 16) initState) 1 0).val
        = (getLane initState 1 0).val ^^^ leVal8 (List.range 16) ((5*0+1)*8)) ∧
     (2 ≤ 5*0+1 → getLane (absorbBlock 2 (List.range 16) initState) 1 0 = getLane initState 1 0)) ∧
    squeezeChars initState 64 = hexOfBytes ((serializeState initState).take (64 / 8)) :=
  ⟨C5_sponge_layout.1 2 (List.range 16) initState 1 0 (by decide) (by decide)
      (by simp [Wf, initState, List.mem_replicate])
      (by intro b hb; have := List.mem_range.mp hb; omega),
   C5_sponge_layout.2.2 initState 64
      (by
        intro x y hx hy
        interval_cases x <;> interval_cases y <;>
          exact ⟨by decide, by decide, by decide, by decide⟩)
      (by decide)⟩

/-! ## C6: digest length and character set -/

theorem chunks_ne_nil (n : Nat) (l : List Nat) (h : l ≠ []) : chunks n l ≠ [] := by
  cases l with
  | nil => exact absurd rfl h
  | cons a t =>
    rw [chunks]
    simp [chunksAux]

theorem foldl_absorb_norm (nL : Nat) (blocks : List (List Nat)) (s : State)
    (h : blocks ≠ []) :
    normState (blocks.foldl (fun s b => keccak_f_1600 (absorbBlock nL b s)) s) := by
  induction blocks generalizing s with
  | nil => exact absurd rfl h
  | cons b rest ih =>
    rw [List.foldl_cons]
    cases rest with
    | nil =>
      rw [List.foldl_nil]
      exact keccak_f_1600_norm _
    | cons b2 rest2 => exact ih _ (List.cons_ne_nil _ _)

theorem padMsg_ne_nil (rb : Nat) (kp : Bool) (msg : List Nat) : padMsg rb kp msg ≠ [] := by
  rw [padMsg]
  split <;> simp

theorem length_mk (cs : List Char) : (String.mk cs).length = cs.length := rfl

theorem core_format (r c : Nat) (kp : Bool) (msg : List Nat)
    (h8 : (c/2) % 8 = 0) (hle : (c/2)/8 ≤ 200) :
    (keccak1600core r c kp msg).length = (c/2)/4 ∧
    ∀ ch ∈ keccak1600core r c kp msg, isLowerHex ch = true := by
  have hblocks := chunks_ne_nil (r/8) _ (padMsg_ne_nil (r/8) kp msg)
  have hn : normState ((chunks (r/8) (padMsg (r/8) kp msg)).foldl
      (fun s b => keccak_f_1600 (absorbBlock (r/64) b s)) initState) :=
    foldl_absorb_norm _ _ _ hblocks
  have heq : keccak1600core r c kp msg =
      squeezeChars ((chunks (r/8) (padMsg (r/8) kp msg)).foldl
        (fun s b => keccak_f_1600 (absorbBlock (r/64) b s)) initState) (c/2) := rfl
  rw [heq, squeeze_refines _ _ hn h8]
  constructor
  · rw [hexOfBytes_length, List.length_take, serializeState_length, Nat.min_eq_left hle]
    omega
  · intro ch hch
    exact (hexOfBytes_chars _ hch).1

theorem mk_data (X : List Char) : (String.mk X).data = X := rfl

theorem hash224_eq (M : String) :
    hash224 M = String.mk (keccak1600core 1152 448 false (utf8Encode M)) := rfl

theorem hash256_eq (M : String) :
    hash256 M = String.mk (keccak1600core 1088 512 false (utf8Encode M)) := rfl

theorem hash384_eq (M : String) :
    hash384 M = String.mk (keccak1600core 832 768 false (utf8Encode M)) := rfl

theorem hash512_eq (M : String) :
    hash512 M = String.mk (keccak1600core 576 1024 false (utf8Encode M)) := rfl

/-- C6: for every message and each of the four variants with the default
`hex` output format, the digest consists only of lowercase hexadecimal
characters and has length exactly `2 × (l/8)`: 56, 64, 96 or 128. -/
theorem C6_digest_format (M : String) :
    ((hash224 M).length = 56 ∧ (hash224 M).data.all isLowerHex = true) ∧
    ((hash256 M).length = 64 ∧ (hash256 M).data.all isLowerHex = true) ∧
    ((hash384 M).length = 96 ∧ (hash384 M).data.all isLowerHex = true) ∧
    ((hash512 M).length = 128 ∧ (hash512 M).data.all isLowerHex = true) := by
  have h224 := core_format 1152 448 false (utf8Encode M) (by norm_num) (by norm_num)
  have h256 := core_format 1088 512 false (utf8Encode M) (by norm_num) (by norm_num)
  have h384 := core_format 832 768 false (utf8Encode M) (by norm_num) (by norm_num)
  have h512 := core_format 576 1024 false (utf8Encode M) (by norm_num) (by norm_num)
  refine ⟨⟨?_, ?_⟩, ⟨?_, ?_⟩, ⟨?_, ?_⟩, ⟨?_, ?_⟩⟩
  · rw [hash224_eq, length_mk]
    exact h224.1.trans (by norm_num)
  · rw [hash224_eq, mk_data, List.all_eq_true]
    exact h224.2
  · rw [hash256_eq, length_mk]
    exact h256.1.trans (by norm_num)
  · rw [hash256_eq, mk_data, List.all_eq_true]
    exact h256.2
  · rw [hash384_eq, length_mk]
    exact h384.1.trans (by norm_num)
  · rw [hash384_eq, mk_data, List.all_eq_true]
    exact h384.2
  · rw [hash512_eq, length_mk]
    exact h512.1.trans (by norm_num)
  · rw [hash512_eq, mk_data, List.all_eq_true]
    exact h512.2

/-! ## C7: unrecognized option values fall back to the defaults -/

/-- C7: an options record with an unrecognized `padding`, `msgFormat` or
`outFormat` value produces the same result as the corresponding documented
default (`sha-3` / `string` / `hex`), and as long as the `hex-bytes`
decoder is not selected no error can be raised. -/
theorem C7_option_fallbacks (r c : Nat) (M : String) (opt : HashOptions) :
    (opt.padding ≠ "sha-3" → opt.padding ≠ "keccak" →
      keccak1600 r c M opt = keccak1600 r c M { opt with padding := "sha-3" }) ∧
    (opt.msgFormat ≠ "string" → opt.msgFormat ≠ "hex-bytes" →
      keccak1600 r c M opt = keccak1600 r c M { opt with msgFormat := "string" }) ∧
    (opt.outFormat ≠ "hex" → opt.outFormat ≠ "hex-b" → opt.outFormat ≠ "hex-w" →
      keccak1600 r c M opt = keccak1600 r c M { opt with outFormat := "hex" }) ∧
    (opt.msgFormat ≠ "hex-bytes" → (keccak1600 r c M opt).isSome = true) := by
  refine ⟨?_, ?_, ?_, ?_⟩
  · intro _ h2
    have hb : (opt.padding == "keccak") = false := beq_eq_false_iff_ne.mpr h2
    simp [keccak1600, hb]
  · intro _ h2
    simp [keccak1600, h2]
  · intro h1 h2 h3
    simp [keccak1600, h1, h2, h3]
  · intro h
    rw [keccak1600]
    simp [h]

/-- C7 witness: the fallback theorem at concrete parameters with an
all-unrecognized options record. -/
theorem C7_option_fallbacks_witness :
    (keccak1600 1088 512 "ab" (HashOptions.mk "bogus" "bogus" "bogus")
        = keccak1600 1088 512 "ab" { HashOptions.mk "bogus" "bogus" "bogus" with padding := "sha-3" }) ∧
    (keccak1600 1088 512 "ab" (HashOptions.mk "bogus" "bogus" "bogus")
        = keccak1600 1088 512 "ab" { HashOptions.mk "bogus" "bogus" "bogus" with msgFormat := "string" }) ∧
    (keccak1600 1088 512 "ab" (HashOptions.mk "bogus" "bogus" "bogus")
        = keccak1600 1088 512 "ab" { HashOptions.mk "bogus" "bogus" "bogus" with outFormat := "hex" }) ∧
    (keccak1600 1088 512 "ab" (HashOptions.mk "bogus" "bogus" "bogus")).isSome = true := by
  have h := C7_option_fallbacks 1088 512 "ab" (HashOptions.mk "bogus" "bogus" "bogus")
  exact ⟨h.1 (by decide) (by decide), h.2.1 (by decide) (by decide),
         h.2.2.1 (by decide) (by decide) (by decide), h.2.2.2 (by decide)⟩

/-! ## C9 and C10: `hex-bytes` decoding of malformed input -/

theorem chunk2_length : ∀ (l : List Char), (chunk2 l).length = l.length / 2
  | [] => rfl
  | [c] => by
      rw [show chunk2 [c] = [] from rfl]
      simp
  | a :: b :: rest => by
      rw [show chunk2 (a :: b :: rest) = [a, b] :: chunk2 rest from rfl]
      rw [List.length_cons, chunk2_length rest]
      simp only [List.length_cons]
      omega

theorem chunk2_dropLast : ∀ (l : List Char), l.length % 2 = 1 → chunk2 l.dropLast = chunk2 l
  | [], h => by simp at h
  | [_], _ => rfl
  | a :: b :: rest, h => by
      cases rest with
      | nil => simp at h
      | cons c t =>
        have h' : (c :: t).length % 2 = 1 := by
          simp only [List.length_cons] at h ⊢
          omega
        calc chunk2 (a :: b :: c :: t).dropLast
            = [a, b] :: chunk2 ((c :: t).dropLast) := rfl
          _ = [a, b] :: chunk2 (c :: t) := by rw [chunk2_dropLast (c :: t) h']
          _ = chunk2 (a :: b :: c :: t) := rfl

/-- C9 (counterexample): `"61  "` contains two spaces, yet after the single
space removal the remaining ` ` is the dropped trailing character, so the
decoded bytes — and hence the digest — coincide with those of `"61"` (all
spaces removed), contradicting the claim that the digest always differs. -/
theorem C9_cex :
    ("61  ".toList.count ' ' = 2) ∧ hashHex256 "61  " = hashHex256 "61" := by
  have h : hexBytesToString "61  " = hexBytesToString "61" := by decide
  exact ⟨by decide, by rw [hashHex256, hashHex256, h]⟩

theorem hex_not_term {c : Char} (h : (hexDigitVal c).isSome = true) :
    isLineTerm c = false := by
  by_contra hb
  have hbt : isLineTerm c = true := by
    cases hlt : isLineTerm c
    · exact absurd hlt hb
    · rfl
  rw [isLineTerm] at hbt
  simp only [Bool.or_eq_true, beq_iff_eq] at hbt
  rcases hbt with ((rfl | rfl) | rfl) | rfl <;> exact absurd h (by decide)

theorem jsMatch2_eq_chunk2 : ∀ (l : List Char), (∀ c ∈ l, isLineTerm c = false) →
    jsMatch2 l = chunk2 l
  | [], _ => rfl
  | [_], _ => rfl
  | a :: b :: rest, h => by
      have ha : isLineTerm a = false := h a (by simp)
      have hb : isLineTerm b = false := h b (by simp)
      rw [jsMatch2, ha, hb]
      simp only [Bool.false_eq_true, if_false]
      rw [jsMatch2_eq_chunk2 rest (fun c hc => h c (by simp [hc]))]
      rfl

/-- C10 (counterexample): an input of odd length 1 (after removing the
first space) is not hashed — `match(/.{2}/g)` returns `null` and the
subsequent `.map` throws, so an error *is* raised for this malformed
`hex-bytes` input; likewise for `'\n\n\n'`, odd length 3 of line
terminators which `.` never matches. -/
theorem C10_cex :
    (hexBytesToString "a" = none ∧ hashHex256 "a" = none) ∧
    (hexBytesToString "\n\n\n" = none ∧ hashHex256 "\n\n\n" = none) := by
  refine ⟨⟨by decide, ?_⟩, by decide, ?_⟩
  · rw [hashHex256, show hexBytesToString "a" = none from by decide]
    rfl
  · rw [hashHex256, show hexBytesToString "\n\n\n" = none from by decide]
    rfl

/-- C10 (amended): with `msgFormat: 'hex-bytes'`, an input of hexadecimal
digits with odd length at least 3 (after removing the first space) is not
rejected — the trailing unpaired hex digit is silently dropped by the
`/.{2}/g` match and the hash of the remaining even-length prefix is
returned; but malformed input *can* raise an error: a string of length
exactly 1 after space removal, or one whose characters are all line
terminators, makes `match` return `null` and `.map` throw. -/
theorem C10_odd_hex (M : String)
    (hhex : ∀ c ∈ removeFirstSpace M.toList, (hexDigitVal c).isSome = true)
    (hodd : (removeFirstSpace M.toList).length % 2 = 1)
    (hlen : 3 ≤ (removeFirstSpace M.toList).length) :
    hashHex256 M =
      (charsToBytes ((removeFirstSpace M.toList).dropLast)).map (keccak1600core 1088 512 false) ∧
    (hashHex256 M).isSome = true := by
  have hterm : ∀ c ∈ removeFirstSpace M.toList, isLineTerm c = false :=
    fun c hc => hex_not_term (hhex c hc)
  have hm : jsMatch2 (removeFirstSpace M.toList) = chunk2 (removeFirstSpace M.toList) :=
    jsMatch2_eq_chunk2 _ hterm
  have hmd : jsMatch2 (removeFirstSpace M.toList).dropLast
      = chunk2 (removeFirstSpace M.toList).dropLast :=
    jsMatch2_eq_chunk2 _ (fun c hc =>
      hterm c ((List.dropLast_sublist (removeFirstSpace M.toList)).subset hc))
  have hne : removeFirstSpace M.toList ≠ [] := by
    intro h
    rw [h] at hlen
    simp at hlen
  have hc2 : chunk2 (removeFirstSpace M.toList) ≠ [] := by
    intro h
    have hl := chunk2_length (removeFirstSpace M.toList)
    rw [h] at hl
    simp only [List.length_nil] at hl
    omega
  have hdropne : (removeFirstSpace M.toList).dropLast ≠ [] := by
    have hl := List.length_dropLast (removeFirstSpace M.toList)
    intro h
    rw [h] at hl
    simp only [List.length_nil] at hl
    omega
  have hdl := chunk2_dropLast _ hodd
  constructor
  · rw [hashHex256, hexBytesToString, charsToBytes, if_neg hne,
        if_neg (by rw [hm]; exact hc2),
        charsToBytes, if_neg hdropne, if_neg (by rw [hmd, hdl]; exact hc2),
        hm, hmd, hdl]
  · rw [hashHex256, hexBytesToString, charsToBytes, if_neg hne,
        if_neg (by rw [hm]; exact hc2)]
    rfl

/-- C10 witness: the odd-length theorem applied to `"abc"`, whose trailing
`c` is dropped. -/
theorem C10_odd_hex_witness :
    (hashHex256 "abc" =
      (charsToBytes ((removeFirstSpace "abc".toList).dropLast)).map (keccak1600core 1088 512 false) ∧
    (hashHex256 "abc").isSome = true) :=
  C10_odd_hex "abc" (by decide) (by decide) (by decide)

set_option maxRecDepth 100000 in
set_option maxHeartbeats 4000000 in
/-- C9 (amended): with `msgFormat: 'hex-bytes'` only the first space is
removed, so remaining spaces land inside two-character groups passed to
`parseInt` (which skips leading whitespace): `'61 62 63'` decodes to bytes
`61 62 06` — not the `61 62 63` of the space-free hex — and its digest
differs from that of `'616263'`, with no error raised on these inputs.
This does not hold of every input with two or more spaces (`'61  '`
decodes like `'61'`, and `'  '` raises an error). -/
theorem C9_space_decoding :
    hexBytesToString "61 62 63" = some [0x61, 0x62, 0x06] ∧
    hexBytesToString "616263" = some [0x61, 0x62, 0x63] ∧
    hashHex256 "61 62 63" ≠ hashHex256 "616263" ∧
    (hashHex256 "61 62 63").isSome = true ∧
    hexBytesToString "  " = none := by
  refine ⟨by decide, by decide, by decide, ?_, by decide⟩
  rw [hashHex256, show hexBytesToString "61 62 63" = some [0x61, 0x62, 0x06] from by decide]
  rfl

/-! ## C1: known-answer tests -/

set_option maxRecDepth 100000 in
set_option maxHeartbeats 4000000 in
/-- C1 (counterexample): `hash256('')` does not equal the claimed 63-hex-
character string — the claim dropped the final `a` of the digest. -/
theorem C1_cex :
    hash256 "" ≠ "a7ffc6f8bf1ed76651c14756a061d662f580ff4de43b49fa82d80a4b80f8434" := by
  decide

set_option maxRecDepth 100000 in
set_option maxHeartbeats 8000000 in
/-- C1 (amended): with default options, `hash256('')` returns the 64-char
hex string `a7ffc6f8bf1ed76651c14756a061d662f580ff4de43b49fa82d80a4b80f8434a`
(the claim omitted the trailing `a`) and `hash512('abc')` returns the
128-char hex string claimed, both as contiguous hex. -/
theorem C1_known_answers :
    hash256 "" = "a7ffc6f8bf1ed76651c14756a061d662f580ff4de43b49fa82d80a4b80f8434a" ∧
    hash512 "abc" = "b751850b1a57168a5693cd924b6b096e08f621827444f70d884f5d0240d2712e10e116e9192af3c91a7ec57647e3934057340b4cf408d5a56592f8274eec53f0" := by
  constructor <;> decide

end Sha3
